import Mathlib

/-!
Verification development for the PCM_SEQ2 reader/writer core (pcmio.c) and the
episode aligner (klustio.cc) of the mspikes repository.

The development shallowly embeds the C code at the level of sample lists and
explicit handle state.  File positions are modelled as integers; the byte-level
contents of headers are abstracted into the fields the code actually inspects
(control words become constructors of an inductive of "slots" the read loop can
encounter; the recordwords field and the per-segment sample block are carried
explicitly).  Sample values are modelled as Int (C short); on a little-endian
host the byte-sex conversion macros of pcmio.c are the identity, so samples are
copied unchanged.  C long / int arithmetic is modelled with Int, using Int.tdiv
for C integer division (truncation toward zero).
-/

namespace PcmSeq2

/-! ### Format constants (pcmseq2_indexfile, lines 969-971)

Segment and entry header sizes depend on the sub-format type: type 1 files
(magic byte 0x36) use 4140-byte segments and 56-byte entry headers, type 2
files (magic 0x03) use 4134 and 54. -/

def segsizeOfType (type1 : Bool) : Int := if type1 then 4140 else 4134

def enthdrsizeOfType (type1 : Bool) : Int := if type1 then 56 else 54

/-! ### Segments

A physical segment carries a recordwords field (nonzero only in the last
segment of an entry, where it holds the entry total sample count) and 2048
samples, stored on disk as three sub-blocks of 1005, 1021 and 22 samples
(fields samples1, samples2, samples3 of readsegment). -/

structure Seg where
  rw : Int
  samples : List Int
  deriving Repr, DecidableEq

/-! ### Reader: pcmseq2_read inner copy loop (pcmio.c lines 686-748)

For one sub-block of size sz whose first sample has absolute index blockstart
within the entry, the code copies the part overlapping the requested inclusive
range [start, stop], trimming startpad samples at the front and endpad at the
back (lines 703-744, repeated for the three sub-blocks). -/

def copyBlock (start stop blockstart sz : Int) (xs : List Int) : List Int :=
  let blockstop := blockstart + sz - 1
  if blockstart ≤ stop ∧ start ≤ blockstop then
    let startpad : Int := if blockstart < start then start - blockstart else 0
    let endpad : Int := if stop < blockstop then blockstop - stop else 0
    (xs.drop startpad.toNat).take (blockstop - blockstart - startpad - endpad + 1).toNat
  else []

/-- One decoded segment contributes its three sub-blocks (sizes 1005, 1021, 22,
contiguous in the logical 2048-sample payload) trimmed to the requested range. -/
def readSeg (start stop blockstart : Int) (s : Seg) : List Int :=
  copyBlock start stop blockstart 1005 (s.samples.take 1005) ++
  copyBlock start stop (blockstart + 1005) 1021 ((s.samples.drop 1005).take 1021) ++
  copyBlock start stop (blockstart + 2026) 22 ((s.samples.drop 2026).take 22)

/-- What the read loop encounters at each iteration after the entry header:
a control word 0x01 introducing a segment that decodes and validates (vseg),
a control word 0x01 whose readsegment call fails (bseg, with the resulting
end-of-file indicator state), a control word 0x03 (the next entry header), or
any other control word (stopcw, including the 0 produced by a failed peek at
end of file, with the end-of-file indicator state). -/
inductive RSlot where
  | vseg (s : Seg)
  | bseg (feof : Bool)
  | nextEnt
  | stopcw (cw : Int) (feof : Bool)
  deriving Repr, DecidableEq

/-- Loop-carried state of pcmseq2_read: blockstart (absolute sample index of
the current segment), the samples copied to the output buffer so far (curpos
indexes its end in C), the scratch p2seg.recordwords of the most recent
readsegment call, and the file position. -/
structure RdAcc where
  blockstart : Int
  curpos : List Int
  segrw : Int
  filepos : Int
  deriving Repr, DecidableEq

/-- How the read loop ended: at a next-entry header (control word 0x03,
status 0), or by a break with status -1 (carrying the end-of-file flag
consulted at line 749). -/
inductive RExit where
  | entryFound
  | failed (feof : Bool)
  deriving Repr, DecidableEq

/-- The for(;;) loop of pcmseq2_read (lines 672-748).  A segment entirely
outside [start, stop] is skipped without decoding (skipsegment); an
overlapping segment is decoded (updating the recordwords scratch) and its
overlap is copied; control word 0x03 ends the entry; anything else breaks with
status -1.  Running off the modelled slot list is reading at end of file:
the peek fread reads nothing, leaving control word 0 and the end-of-file
indicator set. -/
def rdloop (start stop segsize : Int) : List RSlot → RdAcc → RdAcc × RExit
  | [], a => (a, .failed true)
  | .vseg s :: rest, a =>
    if stop < a.blockstart ∨ a.blockstart + 2048 - 1 < start then
      rdloop start stop segsize rest
        { a with blockstart := a.blockstart + 2048, filepos := a.filepos + segsize }
    else
      rdloop start stop segsize rest
        { blockstart := a.blockstart + 2048
          curpos := a.curpos ++ readSeg start stop a.blockstart s
          segrw := s.rw
          filepos := a.filepos + segsize }
  | .bseg feof :: rest, a =>
    if stop < a.blockstart ∨ a.blockstart + 2048 - 1 < start then
      rdloop start stop segsize rest
        { a with blockstart := a.blockstart + 2048, filepos := a.filepos + segsize }
    else (a, .failed feof)
  | .nextEnt :: _, a => (a, .entryFound)
  | .stopcw _ feof :: _, a => (a, .failed feof)

/-- Read-mode pcmseq2 handle state: current entry, last entry number
(p2fp.lastentry), the entry position and size directory caches, the
p2seg.recordwords scratch, and the stream position. -/
structure Handle where
  currententry : Int
  lastentry : Int
  posCache : Int → Int
  sizeCache : Int → Int
  segrw : Int
  filepos : Int

/-- pcmseq2_seektoentry (lines 807-828): fails for entry ≤ 0, for entry beyond
lastentry (when the file is fully indexed, lastentry ≠ -1), or when the
position cache has no offset; otherwise seeks to the cached offset and sets
currententry. -/
def pcmseq2_seektoentry (h : Handle) (entry : Int) : Option Handle :=
  if entry ≤ 0 ∨ (h.lastentry ≠ -1 ∧ h.lastentry < entry) then none
  else if h.posCache entry = -1 then none
  else some { h with filepos := h.posCache entry, currententry := entry }

/-- pcmseq2_read (lines 629-770).  The file contents from the seek position on
are modelled by hdrOk (whether readentryhdr succeeds and validates) and the
slot list.  Returns the final handle and, on success, the copied samples
together with the reported recordwords.  On any failure after the initial
seek, the position is restored to startpos (the position cached just before
the entry header read). -/
def pcmseq2_read (type1 : Bool) (hdrOk : Bool) (slots : List RSlot)
    (h : Handle) (entry start stop : Int) : Handle × Option (List Int × Int) :=
  match pcmseq2_seektoentry h entry with
  | none => (h, none)
  | some h1 =>
    let startpos := h1.filepos
    if hdrOk = false then ({ h1 with filepos := startpos }, none)
    else
      let h2 := { h1 with filepos := h1.filepos + enthdrsizeOfType type1 }
      let r := rdloop start stop (segsizeOfType type1) slots
        { blockstart := 0, curpos := [], segrw := h2.segrw, filepos := h2.filepos }
      match r.2 with
      | .entryFound =>
        let h3 := { h2 with currententry := entry + 1
                            posCache := fun i => if i = entry + 1 then r.1.filepos else h2.posCache i
                            segrw := r.1.segrw
                            filepos := r.1.filepos }
        if entry = h2.lastentry ∧ stop < r.1.blockstart then
          ({ h3 with filepos := startpos, currententry := entry }, some (r.1.curpos, r.1.segrw))
        else (h3, some (r.1.curpos, r.1.segrw))
      | .failed feof =>
        if feof = true ∨ (entry = h2.lastentry ∧ stop < r.1.blockstart) ∨ r.1.segrw ≠ 0 then
          ({ h2 with filepos := startpos, segrw := r.1.segrw }, some (r.1.curpos, r.1.segrw))
        else ({ h2 with filepos := startpos, segrw := r.1.segrw }, none)

/-! ### Writer: pcmseq2_write_hdr / pcmseq2_write_data (lines 1266-1535)

Writer state: cursamp (position 0..2047 within the logical 2048-sample
segment triple; 2048 is the sentinel installed by pcmseq2_write_hdr meaning a
new segment record must be opened before any sample is written), the running
entry sample total pcmseq3_entrysize, the currently open segment record (its
recordwords field as written when the record was opened, and the samples
written into it so far), and the completed segment records of the entry.  The
pcmseq3_poscache backpatch slot always addresses the recordwords field of the
most recently opened segment record: the open record if one exists, otherwise
the last completed one. -/

structure WState where
  cursamp : Int
  entrysize : Int
  cur : Option Seg
  done : List Seg
  deriving Repr, DecidableEq

/-- The while loop of pcmseq2_write_data (lines 1434-1522) without the
trailing zero-refill hack (handled by the caller, see pcmseq2_write_data).
State selection from cursamp (lines 1425-1427): FIRSTSEG below 1005,
LASTSEG from 2026 up, MIDDLESEG between.  Writing samples (the putdata macro)
appends them to the open segment record; completing the LASTSEG sub-block
moves the open record to the completed list and, when more data follows or
the call is not closing the entry, opens a fresh record whose recordwords
field is the pending entry size when the entry is about to close within 2048
samples and 0 otherwise (lines 1494-1505).  At the 2048 sentinel installed by
pcmseq2_write_hdr, togo is 0, so toNat clamps the take/drop to write nothing,
exactly as the if (togo > 0) guard at line 1486. -/
def consume (lastseg : Bool) : WState → List Int → WState
  | ⟨cursamp, entrysize, cur, done⟩, data =>
    if hdata : data = [] then ⟨cursamp, entrysize, cur, done⟩
    else if h1 : cursamp < 1005 then
      if h2 : 1005 - cursamp ≤ (data.length : Int) then
        consume lastseg
          ⟨1005, entrysize,
           cur.map fun s => ⟨s.rw, s.samples ++ data.take (1005 - cursamp).toNat⟩, done⟩
          (data.drop (1005 - cursamp).toNat)
      else ⟨cursamp + data.length, entrysize,
            cur.map fun s => ⟨s.rw, s.samples ++ data⟩, done⟩
    else if h3 : cursamp < 2026 then
      if h4 : 2026 - cursamp ≤ (data.length : Int) then
        consume lastseg
          ⟨2026, entrysize,
           cur.map fun s => ⟨s.rw, s.samples ++ data.take (2026 - cursamp).toNat⟩, done⟩
          (data.drop (2026 - cursamp).toNat)
      else ⟨cursamp + data.length, entrysize,
            cur.map fun s => ⟨s.rw, s.samples ++ data⟩, done⟩
    else
      if h5 : 2048 - cursamp ≤ (data.length : Int) then
        consume lastseg
          ⟨0, entrysize,
           if lastseg = false ∨ data.drop (2048 - cursamp).toNat ≠ [] then
             some ⟨if lastseg = true ∧ ((data.drop (2048 - cursamp).toNat).length : Int) ≤ 2048
                   then entrysize else 0, []⟩
           else none,
           match cur with
           | some s => done ++ [⟨s.rw, s.samples ++ data.take (2048 - cursamp).toNat⟩]
           | none => done⟩
          (data.drop (2048 - cursamp).toNat)
      else ⟨cursamp + data.length, entrysize,
            cur.map fun s => ⟨s.rw, s.samples ++ data⟩, done⟩
termination_by st data => (2 * data.length + (if 2048 ≤ st.cursamp then 1 else 0))
decreasing_by
  · have ht : (1 : Int) ≤ 1005 - cursamp := by omega
    have hb : (if 2048 ≤ (1005:Int) then 1 else 0) = 0 := by norm_num
    simp only [List.length_drop, hb]
    have : 1 ≤ (1005 - cursamp).toNat := by omega
    have : (1005 - cursamp).toNat ≤ data.length := by omega
    omega
  · have ht : (1 : Int) ≤ 2026 - cursamp := by omega
    have hb : (if 2048 ≤ (2026:Int) then 1 else 0) = 0 := by norm_num
    simp only [List.length_drop, hb]
    have : 1 ≤ (2026 - cursamp).toNat := by omega
    have : (2026 - cursamp).toNat ≤ data.length := by omega
    omega
  · have hz : (if 2048 ≤ (0:Int) then 1 else 0) = 0 := by norm_num
    simp only [List.length_drop, hz]
    by_cases hc : 2048 ≤ cursamp
    · have ho : (if 2048 ≤ cursamp then 1 else 0) = 1 := by simp [hc]
      simp only [ho]
      omega
    · have ho : (if 2048 ≤ cursamp then 1 else 0) = 0 := by simp [hc]
      simp only [ho]
      have : 1 ≤ (2048 - cursamp).toNat := by omega
      have : (2048 - cursamp).toNat ≤ data.length := by omega
      omega

/-- State selection of pcmseq2_write_data (lines 1425-1427), with the values
of the FIRSTSEG / MIDDLESEG / LASTSEG constants (lines 1410-1412). -/
def writeState (cursamp : Int) : Int :=
  if cursamp < 1005 then 1 else if 2026 ≤ cursamp then 3 else 2

/-- Writer-state effect of pcmseq2_write_hdr (lines 1336-1337): cursamp is set
to the 2048 sentinel and the pending entry size to 0; the new entry has no
segment records yet.  The header bytes themselves (control word, init key,
timestamp, gain, sample rate) are not modelled. -/
def pcmseq2_write_hdr : WState :=
  { cursamp := 2048, entrysize := 0, cur := none, done := [] }

/-- Rewrite the recordwords field of the last element of a segment record
list; a no-op on the empty list (C would write through a stale pcmseq3_poscache
offset belonging to no record of this entry). -/
def setLastRw (v : Int) : List Seg → List Seg
  | [] => []
  | [s] => [⟨v, s.samples⟩]
  | s :: t :: rest => s :: setLastRw v (t :: rest)

/-- The backpatch performed when lastsegment is set (lines 1523-1528): seek to
pcmseq3_poscache, rewrite the recordwords field there with the accumulated
entry total, seek back to end of file.  pcmseq3_poscache addresses the most
recently opened segment record. -/
def backpatchRw (st : WState) : WState :=
  match st.cur with
  | some s => { st with cur := some ⟨st.entrysize, s.samples⟩ }
  | none => { st with done := setLastRw st.entrysize st.done }

/-- pcmseq2_write_data (lines 1414-1535).  Adds the call sample count to the
entry total; a zero-length closing call is turned into zero padding up to the
next 2048 boundary before the loop (lines 1429-1433); the loop consumes the
data; if the data ran out mid-segment on a closing call the in-loop refill
(lines 1516-1521) pads with zeros to the boundary (after which cursamp is 0,
so the refill cannot trigger again); a closing call finally backpatches the
recordwords field.  -/
def pcmseq2_write_data : WState → List Int → Bool → WState
  | ⟨cursamp, entrysize, cur, done⟩, data, lastseg =>
    let data1 := if lastseg = true ∧ data = [] then
        List.replicate (2048 - cursamp).toNat 0 else data
    let st1 := consume lastseg ⟨cursamp, entrysize + data.length, cur, done⟩ data1
    let st2 := if lastseg = true ∧ data1 ≠ [] ∧ 0 < st1.cursamp then
        consume lastseg st1 (List.replicate (2048 - st1.cursamp).toNat 0)
      else st1
    if lastseg = true then backpatchRw st2 else st2

/-- One entry written as a sequence of data chunks (each a pcmseq2_write_data
call with lastsegment = 0) after pcmseq2_write_hdr. -/
def writeChunks (chunks : List (List Int)) : WState :=
  chunks.foldl (fun st c => pcmseq2_write_data st c false) pcmseq2_write_hdr

/-- The same entry closed by a final zero-length pcmseq2_write_data call with
lastsegment = 1. -/
def writeEntryClose (chunks : List (List Int)) : WState :=
  pcmseq2_write_data (writeChunks chunks) [] true

/-! ### Generic dispatch layer, write mode (pcmseq_write / pcmseq_seek /
pcmseq_close, lines 222-252, 366-394, 536-557) -/

/-- Low-level writer operations, for stating ordering properties of the
dispatch layer: an entry header write (pcmseq2_write_hdr) or a data write
(pcmseq2_write_data with the given samples and lastsegment flag). -/
inductive WOp where
  | hdr
  | dat (samples : List Int) (lastseg : Bool)
  deriving Repr, DecidableEq

/-- Write-mode PCMFILE state relevant to entry management. -/
structure PcmWHandle where
  entrystarted : Bool
  entry : Int
  deriving Repr, DecidableEq

/-- pcmseq_write (lines 536-557): when no entry is started, write an entry
header first (setting entrystarted), then pass the samples to
pcmseq2_write_data with lastsegment = 0. -/
def pcmseq_write (fp : PcmWHandle) (buf : List Int) : PcmWHandle × List WOp :=
  if fp.entrystarted = false then
    ({ fp with entrystarted := true }, [.hdr, .dat buf false])
  else (fp, [.dat buf false])

/-- pcmseq_seek in write mode (lines 366-383): finalize the current entry with
a zero-length lastsegment write if one is started, clear entrystarted, and set
the entry number. -/
def pcmseq_seek_wronly (fp : PcmWHandle) (entry : Int) : PcmWHandle × List WOp :=
  if fp.entrystarted = true then
    ({ entrystarted := false, entry := entry }, [.dat [] true])
  else ({ fp with entry := entry }, [])

/-- pcmseq_close in write mode (lines 245-250): finalize a still-open entry
before closing the stream. -/
def pcmseq_close_wronly (fp : PcmWHandle) : List WOp :=
  if fp.entrystarted = true then [.dat [] true] else []

/-- Public write-mode calls. -/
inductive PcmCall where
  | write (buf : List Int)
  | seek (entry : Int)
  deriving Repr, DecidableEq

/-- Run a sequence of public calls, collecting the low-level operation trace. -/
def pcmseq_calls : PcmWHandle → List PcmCall → PcmWHandle × List WOp
  | fp, [] => (fp, [])
  | fp, .write buf :: rest =>
    let r := pcmseq_write fp buf
    let r2 := pcmseq_calls r.1 rest
    (r2.1, r.2 ++ r2.2)
  | fp, .seek e :: rest =>
    let r := pcmseq_seek_wronly fp e
    let r2 := pcmseq_calls r.1 rest
    (r2.1, r.2 ++ r2.2)

/-- A trace is well formed relative to an entry-open flag when every data
write happens with an entry header open, and a lastsegment write closes the
entry. -/
def traceOk : Bool → List WOp → Bool
  | _, [] => true
  | _, .hdr :: rest => traceOk true rest
  | isOpen, .dat _ ls :: rest => isOpen && traceOk (if ls then false else isOpen) rest

/-- Entry-open flag after a trace. -/
def openAfter : Bool → List WOp → Bool
  | isOpen, [] => isOpen
  | _, .hdr :: rest => openAfter true rest
  | isOpen, .dat _ ls :: rest => openAfter (if ls then false else isOpen) rest

/-! ### Generic dispatch layer, read-mode seek and stat -/

/-- Read-mode PCMFILE state relevant to seeking. -/
structure PcmRHandle where
  entry : Int
  nentries : Int
  deriving Repr, DecidableEq

/-- pcmseq_seek in read mode (lines 384-391): succeeds exactly when
0 < entry ≤ nentries, updating the current entry. -/
def pcmseq_seek_rdonly (fp : PcmRHandle) (entry : Int) : Option PcmRHandle :=
  if 0 < entry ∧ entry ≤ fp.nentries then some { fp with entry := entry } else none

/-- Timestamp seconds reported by pcmseq_stat (line 512): ticks minus the
epoch constant, divided by 10,000,000, plus the fixed 18000-second offset. -/
def pcmseq_stat_timestamp (datetime : Nat) : Nat :=
  (datetime - 0x007c95674beb4000) / 10000000 + 18000

/-- Microsecond fraction reported by pcmseq_stat (line 513). -/
def pcmseq_stat_microtimestamp (datetime : Nat) : Nat :=
  (datetime - 0x007c95674beb4000) % 10000000 / 10

/-! ### Backward indexer arithmetic (pcmseq2_indexfile, lines 1035-1053) -/

/-- Segment count computed at line 1051: (recordwords + 2048 - 1) / 2048 in C
int arithmetic (truncating division). -/
def entrysegments (recordwords : Int) : Int := Int.tdiv (recordwords + 2048 - 1) 2048

/-- Candidate start-of-entry offset the indexer seeks to (lines 1052-1053):
current position (just after the 36-byte segment header read) plus
segmentsize - 36 - entrysegments * segmentsize - entryhdrsize. -/
def index_entry_start (type1 : Bool) (curpos recordwords : Int) : Int :=
  curpos + (segsizeOfType type1 - 36 -
    entrysegments recordwords * segsizeOfType type1 - enthdrsizeOfType type1)

/-- Modelled from the spec words: the ceiling of recordwords / 2048 as a
mathematical ceiling (for a positive divisor, floor division of the negated
numerator, negated). -/
def ceil_div_spec (a b : Int) : Int := -((-a) / b)

/-! ### Entry-start scan (pcmseq2_scantoentrystart, lines 1133-1197)

The file is abstracted by the predicate valid: whether, at a given byte
offset, the 36-byte read of pcmseq2_scantoentrystart succeeds and validates as
a segment header.  The fused loop below performs the step clamping near the
beginning of file (line 1162), the backward step, and the halving on
validation failure; the loop always exits with step 0, after which the final
seek of entryhdrsize bytes backward is applied. -/

def scanLoop (valid : Int → Bool) (type1 : Bool) (pos : Int) (step : Nat) : Int :=
  if h0 : 0 < step ∧ pos < step * segsizeOfType type1 then
    scanLoop valid type1 pos (step / 2)
  else
    if valid (pos - step * segsizeOfType type1) then
      if h1 : step = 0 then pos
      else scanLoop valid type1 (pos - step * segsizeOfType type1) step
    else
      if h2 : 0 < step / 2 then scanLoop valid type1 pos (step / 2) else pos
termination_by (pos.toNat, step)
decreasing_by
  · apply Prod.Lex.right
    omega
  · apply Prod.Lex.left
    cases type1 <;> simp [segsizeOfType] at h0 ⊢ <;> omega
  · apply Prod.Lex.right
    omega

/-- pcmseq2_scantoentrystart: fails only when called from a position that does
not hold a valid segment header; otherwise runs the backward scan starting
with a 256-segment step and finally steps back over the entry header. -/
def pcmseq2_scantoentrystart (valid : Int → Bool) (type1 : Bool) (pos : Int) : Option Int :=
  if valid pos then some (scanLoop valid type1 pos 256 - enthdrsizeOfType type1) else none

/-- Handling of a corrupted recordwords field (0 or -1) by the indexer
(lines 1016-1033): seek back over the just-read segment header to tmppos, run
the entry-start scan (indexing aborts if it fails), then record the entry
sample count as entrysegments * 2048 where entrysegments is recovered from the
scanned distance. -/
def index_corrupt_recordwords (valid : Int → Bool) (type1 : Bool) (tmppos : Int) : Option Int :=
  match pcmseq2_scantoentrystart valid type1 tmppos with
  | none => none
  | some endpos =>
    some (Int.tdiv (tmppos + segsizeOfType type1 - endpos - enthdrsizeOfType type1)
            (segsizeOfType type1) * 2048)

/-! ### Episode aligner (klustio.cc, sort_unit_episode, lines 111-141) -/

/-- The inner while loop of sort_unit_episode (lines 130-138): advance the
episode pointer while the next episode start nt is positive and not after the
event time; rest holds the episode start times after nt; when the episode list
is exhausted nt becomes -1. -/
def advanceEpisode (atime : Int) : Nat → Int → Int → List Int → Nat × Int × Int × List Int
  | ep, et, nt, rest =>
    if 0 < nt ∧ nt ≤ atime then
      match rest with
      | x :: xs => advanceEpisode atime (ep + 1) nt x xs
      | [] => (ep + 1, nt, -1, [])
    else (ep, et, nt, rest)

/-- The event loop of sort_unit_episode: each event time is assigned to the
episode current after advancing, with offset atime - et. -/
def sort_unit_episode_go (acc : List (Nat × Int)) :
    List Int → Nat → Int → Int → List Int → List (Nat × Int)
  | [], _, _, _, _ => acc
  | atime :: more, ep, et, nt, rest =>
    let r := advanceEpisode atime ep et nt rest
    sort_unit_episode_go (acc ++ [(r.1, atime - r.2.1)]) more r.1 r.2.1 r.2.2.1 r.2.2.2

/-- sort_unit_episode alignment core: initial state reads the first two
episode start times (the C code indexes atimes[0] and atimes[1]
unconditionally, so only inputs with at least two episodes are modelled). -/
def sort_unit_episode (atimes events : List Int) : List (Nat × Int) :=
  match atimes with
  | a0 :: a1 :: rest => sort_unit_episode_go [] events 0 a0 a1 rest
  | _ => []

/-! ### Specification helpers (not from the source)

winSlice is the mathematical description of what the read loop copies from a
sample stream laid out from absolute position p: the part of the inclusive
index window [start, stop] that falls inside the stream.  The helpers
groups2048 / rem2048 / segRecords / fillState describe the writer state as a
function of the flat sample stream written so far. -/

def winSlice (xs : List Int) (p start stop : Int) : List Int :=
  (xs.drop (start - p).toNat).take (stop + 1 - max start p).toNat

/-- Flat sample stream stored in a list of segment records. -/
def segsStream (segs : List Seg) : List Int := (segs.map Seg.samples).flatten

/-- Complete 2048-sample groups of a stream. -/
def groups2048 (t : List Int) : List (List Int) :=
  if _h : 2048 ≤ t.length then t.take 2048 :: groups2048 (t.drop 2048) else []
termination_by t.length
decreasing_by simp only [List.length_drop]; omega

/-- Remainder of a stream after its complete 2048-sample groups. -/
def rem2048 (t : List Int) : List Int :=
  if _h : 2048 ≤ t.length then rem2048 (t.drop 2048) else t
termination_by t.length
decreasing_by simp only [List.length_drop]; omega

/-- Completed segment records for a group list: the first closed record keeps
the recordwords value it was opened with, later records were opened with 0. -/
def segRecords (rw : Int) : List (List Int) → List Seg
  | [] => []
  | g :: gs => ⟨rw, g⟩ :: gs.map fun g2 => ⟨0, g2⟩

/-- Writer state reached by consuming the stream t into an open record that
was opened with recordwords rw, on top of completed records done. -/
def fillState (es : Int) (done : List Seg) (rw : Int) (t : List Int) : WState :=
  { cursamp := ((t.length % 2048 : Nat) : Int)
    entrysize := es
    cur := some ⟨if 2048 ≤ t.length then 0 else rw, rem2048 t⟩
    done := done ++ segRecords rw (groups2048 t) }

/-- Writer state after the header and data chunks concatenating to W. -/
def wshape (W : List Int) : WState :=
  if W = [] then pcmseq2_write_hdr
  else fillState W.length [] 0 W

/-! ## Lemmas about the reader copy loop -/

/-- The sub-block copy of pcmseq2_read extracts exactly the window slice of
the sub-block samples. -/
theorem copyBlock_eq_winSlice (start stop p sz : Int) (xs : List Int)
    (hlen : (xs.length : Int) = sz) (h0 : 0 ≤ start) (hss : start ≤ stop) :
    copyBlock start stop p sz xs = winSlice xs p start stop := by
  simp only [copyBlock, winSlice]
  split
  case isTrue hg =>
    have h1 : (if p < start then start - p else 0).toNat = (start - p).toNat := by
      split <;> omega
    rw [h1]
    by_cases hep : stop < p + sz - 1
    · have h2 : (p + sz - 1 - p - (if p < start then start - p else 0) -
          (if stop < p + sz - 1 then p + sz - 1 - stop else 0) + 1).toNat
          = (stop + 1 - max start p).toNat := by
        split <;> omega
      rw [h2]
    · have hd : (xs.drop (start - p).toNat).length = xs.length - (start - p).toNat := by
        simp
      have h3 : (xs.drop (start - p).toNat).take
            ((p + sz - 1 - p - (if p < start then start - p else 0) -
              (if stop < p + sz - 1 then p + sz - 1 - stop else 0) + 1).toNat)
          = xs.drop (start - p).toNat := by
        apply List.take_of_length_le
        rw [hd]
        split <;> omega
      have h4 : (xs.drop (start - p).toNat).take ((stop + 1 - max start p).toNat)
          = xs.drop (start - p).toNat := by
        apply List.take_of_length_le
        rw [hd]
        omega
      rw [h3, h4]
  case isFalse hg =>
    rcases not_and_or.mp hg with hA | hB
    · have : (stop + 1 - max start p).toNat = 0 := by omega
      rw [this, List.take_zero]
    · rw [List.drop_eq_nil_of_le (by omega), List.take_nil]

/-- Window slices compose over list append. -/
theorem winSlice_append (xs ys : List Int) (p start stop : Int) :
    winSlice (xs ++ ys) p start stop
      = winSlice xs p start stop ++ winSlice ys (p + xs.length) start stop := by
  simp only [winSlice]
  have e1 : ((start - p).toNat - xs.length) = (start - (p + (xs.length : Int))).toNat := by omega
  have e2 : ((stop + 1 - max start p).toNat - (xs.length - (start - p).toNat))
      = (stop + 1 - max start (p + (xs.length : Int))).toNat := by omega
  rw [List.drop_append_eq_append_drop, List.take_append_eq_append_take, List.length_drop, e1, e2]

/-- A slice whose window lies fully outside the stream is empty. -/
theorem winSlice_empty_of_outside (xs : List Int) (p start stop : Int)
    (h : stop < p ∨ p + (xs.length : Int) - 1 < start) :
    winSlice xs p start stop = [] := by
  simp only [winSlice]
  rcases h with hA | hB
  · have : (stop + 1 - max start p).toNat = 0 := by omega
    rw [this, List.take_zero]
  · rw [List.drop_eq_nil_of_le (by omega), List.take_nil]

/-- The empty slice. -/
theorem winSlice_nil (p start stop : Int) : winSlice [] p start stop = [] := by
  simp [winSlice]

/-- Reading one full segment copies exactly its window slice. -/
theorem readSeg_eq_winSlice (start stop p : Int) (s : Seg)
    (hlen : s.samples.length = 2048) (h0 : 0 ≤ start) (hss : start ≤ stop) :
    readSeg start stop p s = winSlice s.samples p start stop := by
  have h26 : (s.samples.drop 1005).drop 1021 = s.samples.drop 2026 := by
    rw [List.drop_drop]
  have t22 : (s.samples.drop 2026).take 22 = s.samples.drop 2026 :=
    List.take_of_length_le (by simp [hlen])
  have hsplit : s.samples
      = s.samples.take 1005 ++ ((s.samples.drop 1005).take 1021 ++ (s.samples.drop 2026).take 22) := by
    rw [t22, ← h26, List.take_append_drop, List.take_append_drop]
  have hl1 : ((s.samples.take 1005).length : Int) = 1005 := by simp [hlen]
  have hl2 : (((s.samples.drop 1005).take 1021).length : Int) = 1021 := by simp [hlen]
  have hl3 : (((s.samples.drop 2026).take 22).length : Int) = 22 := by simp [hlen]
  calc readSeg start stop p s
      = winSlice (s.samples.take 1005) p start stop ++
        (winSlice ((s.samples.drop 1005).take 1021) (p + 1005) start stop ++
         winSlice ((s.samples.drop 2026).take 22) (p + 2026) start stop) := by
        rw [readSeg, copyBlock_eq_winSlice start stop p 1005 _ hl1 h0 hss,
            copyBlock_eq_winSlice start stop (p + 1005) 1021 _ hl2 h0 hss,
            copyBlock_eq_winSlice start stop (p + 2026) 22 _ hl3 h0 hss, List.append_assoc]
    _ = winSlice s.samples p start stop := by
        conv_rhs => rw [hsplit]
        rw [winSlice_append, winSlice_append]
        rw [show p + ((s.samples.take 1005).length : Int) = p + 1005 by rw [hl1]]
        rw [show p + 1005 + (((s.samples.drop 1005).take 1021).length : Int) = p + 2026 by
          rw [hl2]; ring]

/-! ## Easy claims -/

/-- Claim C2 counterexample: for recordwords equal to -2048 (which is neither
0 nor -1), the segment count computed by the indexer with C truncating
division is 0, while the ceiling of recordwords / 2048 is -1, so the claim as
stated fails. -/
theorem claim_C2_counterexample :
    entrysegments (-2048) ≠ ceil_div_spec (-2048) 2048 := by decide

/-- Claim C2 (amended): restricted to recordwords greater than -2048 (in
particular to every positive recordwords), the indexer computes the segment
count as the ceiling of recordwords / 2048, and seeks to
curpos + segmentsize - 36 - segments * segmentsize - entryhdrsize with
segmentsize 4140 (type 1) or 4134 (type 2) and entryhdrsize 56 or 54. -/
theorem claim_C2 (recordwords : Int) (hrw : -2047 ≤ recordwords) :
    entrysegments recordwords = ceil_div_spec recordwords 2048 ∧
    (∀ (type1 : Bool) (curpos : Int),
      index_entry_start type1 curpos recordwords
        = curpos + segsizeOfType type1 - 36 -
            ceil_div_spec recordwords 2048 * segsizeOfType type1 - enthdrsizeOfType type1) := by
  have hseg : entrysegments recordwords = ceil_div_spec recordwords 2048 := by
    unfold entrysegments ceil_div_spec
    rw [Int.tdiv_eq_ediv (by omega) (by norm_num)]
    omega
  refine ⟨hseg, fun type1 curpos => ?_⟩
  unfold index_entry_start
  rw [hseg]
  ring

/-- Claim C2 witness at recordwords = 3000. -/
theorem claim_C2_witness :
    (-2047 : Int) ≤ 3000 ∧
    (entrysegments 3000 = ceil_div_spec 3000 2048 ∧
     (∀ (type1 : Bool) (curpos : Int),
       index_entry_start type1 curpos 3000
         = curpos + segsizeOfType type1 - 36 -
             ceil_div_spec 3000 2048 * segsizeOfType type1 - enthdrsizeOfType type1)) :=
  ⟨by decide, claim_C2 3000 (by decide)⟩

/-- Claim C6 counterexample: pcmseq2_write_hdr does not reset cursamp to 0; it
installs the sentinel value 2048 (the code comment at lines 1396-1397 states
the initial value must be 2048). -/
theorem claim_C6_counterexample : pcmseq2_write_hdr.cursamp ≠ 0 := by decide

/-- Claim C7: in read mode, pcmseq_seek to entry 0 fails, to nentries + 1
fails, to nentries succeeds (whenever the indexed file has at least one
entry), and in general it succeeds exactly when the entry lies in
[1, nentries]. -/
theorem claim_C7 (fp : PcmRHandle) (hn : 1 ≤ fp.nentries) :
    pcmseq_seek_rdonly fp 0 = none ∧
    pcmseq_seek_rdonly fp (fp.nentries + 1) = none ∧
    (pcmseq_seek_rdonly fp fp.nentries).isSome = true ∧
    (∀ entry : Int, (pcmseq_seek_rdonly fp entry).isSome = true ↔
      1 ≤ entry ∧ entry ≤ fp.nentries) := by
  refine ⟨?_, ?_, ?_, fun entry => ?_⟩
  · simp [pcmseq_seek_rdonly]
  · simp [pcmseq_seek_rdonly]
  · simp only [pcmseq_seek_rdonly, if_pos (by omega : 0 < fp.nentries ∧ fp.nentries ≤ fp.nentries)]
    rfl
  · unfold pcmseq_seek_rdonly
    split
    · simpa using by omega
    · simp only [Option.isSome_none, Bool.false_eq_true, false_iff]
      omega

/-- Claim C7 witness at a concrete handle with 3 entries. -/
theorem claim_C7_witness :
    (1 : Int) ≤ (PcmRHandle.mk 1 3).nentries ∧
    (pcmseq_seek_rdonly (PcmRHandle.mk 1 3) 0 = none ∧
     pcmseq_seek_rdonly (PcmRHandle.mk 1 3) ((PcmRHandle.mk 1 3).nentries + 1) = none ∧
     (pcmseq_seek_rdonly (PcmRHandle.mk 1 3) (PcmRHandle.mk 1 3).nentries).isSome = true ∧
     (∀ entry : Int, (pcmseq_seek_rdonly (PcmRHandle.mk 1 3) entry).isSome = true ↔
       1 ≤ entry ∧ entry ≤ (PcmRHandle.mk 1 3).nentries)) :=
  ⟨by decide, claim_C7 (PcmRHandle.mk 1 3) (by decide)⟩

/-- Claim C8: a raw datetime of epoch + 50,000,000 ticks yields a stat
timestamp of exactly 5 + 18000 seconds and a microsecond fraction of 0. -/
theorem claim_C8 :
    pcmseq_stat_timestamp (0x007c95674beb4000 + 50000000) = 5 + 18000 ∧
    pcmseq_stat_microtimestamp (0x007c95674beb4000 + 50000000) = 0 := by
  constructor <;> decide

/-- Claim C9: the two-pointer aligner on episode starts [0, 100, 250] and
event times [10, 105, 260, 300] assigns offset 10 to episode 0, offset 5 to
episode 1, and offsets 10 and 50 to episode 2. -/
theorem claim_C9 :
    sort_unit_episode [0, 100, 250] [10, 105, 260, 300]
      = [(0, 10), (1, 5), (2, 10), (2, 50)] := by decide

/-! ## The read loop over a list of valid segments -/

/-- Over a list of valid segments, the read loop appends exactly the window
slice of the stored sample stream to the output, and exits by running into
end of file. -/
theorem rdloop_vseg (start stop segsize : Int) (segs : List Seg) :
    ∀ a : RdAcc, (∀ s ∈ segs, s.samples.length = 2048) → 0 ≤ start → start ≤ stop →
    (rdloop start stop segsize (segs.map RSlot.vseg) a).1.curpos
        = a.curpos ++ winSlice (segsStream segs) a.blockstart start stop
    ∧ (rdloop start stop segsize (segs.map RSlot.vseg) a).2 = RExit.failed true := by
  induction segs with
  | nil =>
    intro a _ _ _
    constructor
    · simp [rdloop, segsStream, winSlice_nil]
    · simp [rdloop]
  | cons s rest ih =>
    intro a hlen h0 hss
    have hs : s.samples.length = 2048 := hlen s (by simp)
    have hrest : ∀ s2 ∈ rest, s2.samples.length = 2048 := fun s2 hm =>
      hlen s2 (List.mem_cons_of_mem _ hm)
    have hstream : segsStream (s :: rest) = s.samples ++ segsStream rest := by
      simp [segsStream]
    have hcast : ((s.samples.length : Int)) = 2048 := by rw [hs]; norm_num
    rw [hstream, winSlice_append, hcast]
    simp only [List.map_cons, rdloop]
    by_cases hskip : stop < a.blockstart ∨ a.blockstart + 2048 - 1 < start
    · rw [if_pos hskip]
      have hempty : winSlice s.samples a.blockstart start stop = [] := by
        apply winSlice_empty_of_outside
        rw [hcast]
        omega
      rcases ih { a with blockstart := a.blockstart + 2048, filepos := a.filepos + segsize }
          hrest h0 hss with ⟨hc, he⟩
      refine ⟨?_, he⟩
      rw [hc, hempty]
      simp
    · rw [if_neg hskip]
      rcases ih { blockstart := a.blockstart + 2048
                  curpos := a.curpos ++ readSeg start stop a.blockstart s
                  segrw := s.rw
                  filepos := a.filepos + segsize } hrest h0 hss with ⟨hc, he⟩
      refine ⟨?_, he⟩
      rw [hc]
      simp only []
      rw [readSeg_eq_winSlice start stop a.blockstart s hs h0 hss, List.append_assoc]

/-- Characterization of a successful pcmseq2_seektoentry. -/
theorem pcmseq2_seektoentry_some (h : Handle) (entry : Int) (h1 : Handle)
    (hsk : pcmseq2_seektoentry h entry = some h1) :
    h1 = { h with filepos := h.posCache entry, currententry := entry } := by
  unfold pcmseq2_seektoentry at hsk
  split at hsk
  · exact absurd hsk (by simp)
  · split at hsk
    · exact absurd hsk (by simp)
    · exact (Option.some_inj.mp hsk).symm

/-- Reading a whole-entry slot list of valid segments (the entry being the
last data in the file) succeeds and returns exactly the window slice of the
stored stream: the loop runs off the end (end of file), and the forced
success path of line 749 applies because feof is set. -/
theorem pcmseq2_read_vseg (type1 : Bool) (segs : List Seg) (h : Handle)
    (entry start stop : Int)
    (he : 0 < entry) (hle : h.lastentry ≠ -1 → entry ≤ h.lastentry)
    (hpc : h.posCache entry ≠ -1)
    (hlen : ∀ s ∈ segs, s.samples.length = 2048) (h0 : 0 ≤ start) (hss : start ≤ stop) :
    ((pcmseq2_read type1 true (segs.map RSlot.vseg) h entry start stop).2).map Prod.fst
      = some (winSlice (segsStream segs) 0 start stop) := by
  have hsk : pcmseq2_seektoentry h entry
      = some { h with filepos := h.posCache entry, currententry := entry } := by
    unfold pcmseq2_seektoentry
    rw [if_neg (by push_neg; exact ⟨by omega, fun hne => by have := hle hne; omega⟩),
        if_neg hpc]
  rcases rdloop_vseg start stop (segsizeOfType type1) segs
      { blockstart := 0, curpos := [],
        segrw := ({ h with filepos := h.posCache entry, currententry := entry } : Handle).segrw,
        filepos := ({ h with filepos := h.posCache entry, currententry := entry } : Handle).filepos
                    + enthdrsizeOfType type1 }
      hlen h0 hss with ⟨hc, hx⟩
  simp only [pcmseq2_read, hsk]
  rw [if_neg (by simp)]
  simp [hx, hc]

/-- Claim C3: for an entry holding 3000 samples across two physical segments,
pcmseq2_read with start 1000 and stop 2500 (inclusive) returns exactly the
samples with indices 1000 through 2500 of the full entry, 1501 samples in
all, the per-sub-block trims combining across the 1005/1021/22 sub-blocks and
the segment boundary. -/
theorem claim_C3 (ra rb : Int) (s1 s2 : List Int) (h : Handle)
    (hl1 : s1.length = 2048) (hl2 : s2.length = 2048)
    (hle : h.lastentry ≠ -1 → 1 ≤ h.lastentry) (hpc : h.posCache 1 ≠ -1) :
    ((pcmseq2_read false true [RSlot.vseg ⟨ra, s1⟩, RSlot.vseg ⟨rb, s2⟩] h 1 1000 2500).2).map
        Prod.fst
      = some ((((s1 ++ s2).take 3000).drop 1000).take 1501)
    ∧ ((((s1 ++ s2).take 3000).drop 1000).take 1501).length = 1501 := by
  have hmap : [RSlot.vseg ⟨ra, s1⟩, RSlot.vseg ⟨rb, s2⟩]
      = ([⟨ra, s1⟩, ⟨rb, s2⟩] : List Seg).map RSlot.vseg := by simp
  have hlen : ∀ s ∈ ([⟨ra, s1⟩, ⟨rb, s2⟩] : List Seg), s.samples.length = 2048 := by
    intro s hm
    simp only [List.mem_cons, List.not_mem_nil, or_false] at hm
    rcases hm with rfl | rfl
    · exact hl1
    · exact hl2
  have hslice : winSlice (segsStream [⟨ra, s1⟩, ⟨rb, s2⟩]) 0 1000 2500
      = (((s1 ++ s2).take 3000).drop 1000).take 1501 := by
    have hstr : segsStream [⟨ra, s1⟩, ⟨rb, s2⟩] = s1 ++ s2 := by
      simp [segsStream]
    rw [hstr]
    unfold winSlice
    rw [List.drop_take, List.take_take]
    have e1 : ((1000 : Int) - 0).toNat = 1000 := rfl
    have e2 : ((2500 : Int) + 1 - max 1000 0).toNat = 1501 := rfl
    rw [e1, e2]
    norm_num
  constructor
  · rw [hmap, pcmseq2_read_vseg false [⟨ra, s1⟩, ⟨rb, s2⟩] h 1 1000 2500 (by norm_num)
        hle hpc hlen (by norm_num) (by norm_num), hslice]
  · rw [List.length_take, List.length_drop, List.length_take, List.length_append, hl1, hl2]
    omega

/-- Claim C3 witness at concrete samples 0..4095 and a concrete handle. -/
theorem claim_C3_witness :
    ((List.range 2048).map Int.ofNat).length = 2048 ∧
    ((pcmseq2_read false true
        [RSlot.vseg ⟨0, (List.range 2048).map Int.ofNat⟩,
         RSlot.vseg ⟨3000, (List.range 2048).map Int.ofNat⟩]
        (Handle.mk 1 1 (fun i => if i = 1 then 0 else -1) (fun _ => -1) 0 0)
        1 1000 2500).2).map Prod.fst
      = some (((((List.range 2048).map Int.ofNat ++ (List.range 2048).map Int.ofNat).take
          3000).drop 1000).take 1501) :=
  ⟨by simp, (claim_C3 0 3000 ((List.range 2048).map Int.ofNat) ((List.range 2048).map Int.ofNat)
      (Handle.mk 1 1 (fun i => if i = 1 then 0 else -1) (fun _ => -1) 0 0)
      (by simp) (by simp) (fun _ => by norm_num) (by norm_num)).1⟩

/-! ## Claim C4: state restoration on failed reads -/

/-- Claim C4 counterexample: a read of entry 2 on a handle whose current entry
is 1 can fail (header validation failure) while still changing the current
entry to 2: the initial seek already stored it, and the failure path does not
restore it.  The file position and the caches are restored/untouched, but the
handle is not left entirely unchanged. -/
theorem claim_C4_counterexample :
    ((pcmseq2_read false false []
        (Handle.mk 1 2 (fun i => if i = 2 then 100 else -1) (fun _ => -1) 0 0)
        2 0 10).2 = none)
    ∧ (pcmseq2_read false false []
        (Handle.mk 1 2 (fun i => if i = 2 then 100 else -1) (fun _ => -1) 0 0)
        2 0 10).1.currententry
      ≠ (Handle.mk 1 2 (fun i => if i = 2 then 100 else -1) (fun _ => -1) 0 0).currententry := by
  constructor
  · rfl
  · decide

/-- Claim C4 (amended): whenever pcmseq2_read fails after a successful initial
seek, the file position is restored to the position just before the entry
header read (the cached offset of the requested entry), and the directory
caches are untouched; the current entry, however, is left at the requested
entry (set by the initial seek), not at its pre-call value. -/
theorem claim_C4 (type1 hdrOk : Bool) (slots : List RSlot) (h : Handle)
    (entry start stop : Int)
    (hseek : pcmseq2_seektoentry h entry ≠ none)
    (hfail : (pcmseq2_read type1 hdrOk slots h entry start stop).2 = none) :
    (pcmseq2_read type1 hdrOk slots h entry start stop).1.filepos = h.posCache entry
    ∧ (pcmseq2_read type1 hdrOk slots h entry start stop).1.posCache = h.posCache
    ∧ (pcmseq2_read type1 hdrOk slots h entry start stop).1.sizeCache = h.sizeCache
    ∧ (pcmseq2_read type1 hdrOk slots h entry start stop).1.currententry = entry := by
  rcases hsk : pcmseq2_seektoentry h entry with _ | h1
  · exact absurd hsk hseek
  have hchar := pcmseq2_seektoentry_some h entry h1 hsk
  subst hchar
  simp only [pcmseq2_read, hsk] at hfail ⊢
  by_cases hh : hdrOk = false
  · rw [if_pos hh] at hfail ⊢
    exact ⟨rfl, rfl, rfl, rfl⟩
  · rw [if_neg hh] at hfail ⊢
    split
    · rename_i heq
      rw [heq] at hfail
      simp at hfail
      split at hfail <;> simp_all
    · rename_i feof heq
      rw [heq] at hfail
      split
      · rename_i hcnd
        simp [hcnd] at hfail
      · exact ⟨rfl, rfl, rfl, rfl⟩

/-- Claim C4 witness: the amended statement at a concrete failing read. -/
theorem claim_C4_witness :
    (pcmseq2_seektoentry
        (Handle.mk 1 2 (fun i => if i = 2 then 100 else -1) (fun _ => -1) 0 0) 2 ≠ none) ∧
    ((pcmseq2_read false true [RSlot.stopcw 7 false]
        (Handle.mk 1 2 (fun i => if i = 2 then 100 else -1) (fun _ => -1) 0 0)
        2 0 10).2 = none) ∧
    ((pcmseq2_read false true [RSlot.stopcw 7 false]
        (Handle.mk 1 2 (fun i => if i = 2 then 100 else -1) (fun _ => -1) 0 0)
        2 0 10).1.filepos
      = (Handle.mk 1 2 (fun i => if i = 2 then 100 else -1) (fun _ => -1) 0 0).posCache 2
    ∧ (pcmseq2_read false true [RSlot.stopcw 7 false]
        (Handle.mk 1 2 (fun i => if i = 2 then 100 else -1) (fun _ => -1) 0 0)
        2 0 10).1.currententry = 2) := by
  refine ⟨by simp [pcmseq2_seektoentry], by rfl, ?_⟩
  have := claim_C4 false true [RSlot.stopcw 7 false]
      (Handle.mk 1 2 (fun i => if i = 2 then 100 else -1) (fun _ => -1) 0 0)
      2 0 10 (by simp [pcmseq2_seektoentry]) (by rfl)
  exact ⟨this.1, this.2.2.2⟩

/-! ## Lemmas about the writer loop -/

/-- One-step unfolding of the consume loop with the state fields exposed. -/
theorem consume_unfold (l : Bool) (c es : Int) (cur : Option Seg) (done : List Seg)
    (data : List Int) :
    consume l ⟨c, es, cur, done⟩ data
      = if data = [] then ⟨c, es, cur, done⟩
        else if c < 1005 then
          if 1005 - c ≤ (data.length : Int) then
            consume l
              ⟨1005, es, cur.map fun s => ⟨s.rw, s.samples ++ data.take (1005 - c).toNat⟩, done⟩
              (data.drop (1005 - c).toNat)
          else ⟨c + data.length, es, cur.map fun s => ⟨s.rw, s.samples ++ data⟩, done⟩
        else if c < 2026 then
          if 2026 - c ≤ (data.length : Int) then
            consume l
              ⟨2026, es, cur.map fun s => ⟨s.rw, s.samples ++ data.take (2026 - c).toNat⟩, done⟩
              (data.drop (2026 - c).toNat)
          else ⟨c + data.length, es, cur.map fun s => ⟨s.rw, s.samples ++ data⟩, done⟩
        else
          if 2048 - c ≤ (data.length : Int) then
            consume l
              ⟨0, es,
               if l = false ∨ data.drop (2048 - c).toNat ≠ [] then
                 some ⟨if l = true ∧ ((data.drop (2048 - c).toNat).length : Int) ≤ 2048
                       then es else 0, []⟩
               else none,
               match cur with
               | some s => done ++ [⟨s.rw, s.samples ++ data.take (2048 - c).toNat⟩]
               | none => done⟩
              (data.drop (2048 - c).toNat)
          else ⟨c + data.length, es, cur.map fun s => ⟨s.rw, s.samples ++ data⟩, done⟩ := by
  conv_lhs => rw [consume.eq_def]
  rfl

/-- The loop does nothing on empty data. -/
theorem consume_nil (l : Bool) (st : WState) : consume l st [] = st := by
  obtain ⟨c, es, cur, done⟩ := st
  rw [consume_unfold, if_pos rfl]

theorem groups2048_small (t : List Int) (h : t.length < 2048) : groups2048 t = [] := by
  rw [groups2048]
  rw [dif_neg (by omega)]

theorem groups2048_step (t : List Int) (h : 2048 ≤ t.length) :
    groups2048 t = t.take 2048 :: groups2048 (t.drop 2048) := by
  conv_lhs => rw [groups2048]
  rw [dif_pos h]

theorem rem2048_small (t : List Int) (h : t.length < 2048) : rem2048 t = t := by
  rw [rem2048]
  rw [dif_neg (by omega)]

theorem rem2048_step (t : List Int) (h : 2048 ≤ t.length) :
    rem2048 t = rem2048 (t.drop 2048) := by
  conv_lhs => rw [rem2048]
  rw [dif_pos h]

theorem groups2048_length : ∀ (n : Nat) (t : List Int), t.length ≤ n →
    ∀ g ∈ groups2048 t, g.length = 2048 := by
  intro n
  induction n with
  | zero =>
    intro t ht g hg
    rw [groups2048_small t (by omega)] at hg
    exact absurd hg (List.not_mem_nil g)
  | succ n ih =>
    intro t ht g hg
    by_cases h : 2048 ≤ t.length
    · rw [groups2048_step t h] at hg
      rcases List.mem_cons.mp hg with rfl | hg2
      · simp only [List.length_take]
        omega
      · exact ih (t.drop 2048) (by simp only [List.length_drop]; omega) g hg2
    · rw [groups2048_small t (by omega)] at hg
      exact absurd hg (List.not_mem_nil g)

theorem groups2048_flatten : ∀ (n : Nat) (t : List Int), t.length ≤ n →
    (groups2048 t).flatten ++ rem2048 t = t := by
  intro n
  induction n with
  | zero =>
    intro t ht
    rw [groups2048_small t (by omega), rem2048_small t (by omega)]
    simp
  | succ n ih =>
    intro t ht
    by_cases h : 2048 ≤ t.length
    · rw [groups2048_step t h, rem2048_step t h]
      rw [List.flatten_cons, List.append_assoc,
          ih (t.drop 2048) (by simp only [List.length_drop]; omega), List.take_append_drop]
    · rw [groups2048_small t (by omega), rem2048_small t (by omega)]
      simp

theorem rem2048_length : ∀ (n : Nat) (t : List Int), t.length ≤ n →
    (rem2048 t).length = t.length % 2048 := by
  intro n
  induction n with
  | zero =>
    intro t ht
    rw [rem2048_small t (by omega)]
    omega
  | succ n ih =>
    intro t ht
    by_cases h : 2048 ≤ t.length
    · rw [rem2048_step t h, ih (t.drop 2048) (by simp only [List.length_drop]; omega)]
      simp only [List.length_drop]
      omega
    · rw [rem2048_small t (by omega)]
      omega

theorem rem2048_append : ∀ (n : Nat) (t c : List Int), t.length ≤ n →
    rem2048 (t ++ c) = rem2048 (rem2048 t ++ c) := by
  intro n
  induction n with
  | zero =>
    intro t c ht
    rw [rem2048_small t (by omega)]
  | succ n ih =>
    intro t c ht
    by_cases h : 2048 ≤ t.length
    · rw [rem2048_step t h,
          rem2048_step (t ++ c) (by simp only [List.length_append]; omega),
          List.drop_append_of_le_length (by omega),
          ih (t.drop 2048) c (by simp only [List.length_drop]; omega)]
    · rw [rem2048_small t (by omega)]

theorem groups2048_append : ∀ (n : Nat) (t c : List Int), t.length ≤ n →
    groups2048 (t ++ c) = groups2048 t ++ groups2048 (rem2048 t ++ c) := by
  intro n
  induction n with
  | zero =>
    intro t c ht
    rw [groups2048_small t (by omega), rem2048_small t (by omega)]
    simp
  | succ n ih =>
    intro t c ht
    by_cases h : 2048 ≤ t.length
    · rw [groups2048_step t h,
          groups2048_step (t ++ c) (by simp only [List.length_append]; omega),
          List.take_append_of_le_length (by omega),
          List.drop_append_of_le_length (by omega),
          ih (t.drop 2048) c (by simp only [List.length_drop]; omega),
          rem2048_step t h]
      simp
    · rw [groups2048_small t (by omega), rem2048_small t (by omega)]
      simp

theorem segRecords_zero (gs : List (List Int)) :
    segRecords 0 gs = gs.map fun g => (⟨0, g⟩ : Seg) := by
  cases gs with
  | nil => rfl
  | cons g gs2 => simp [segRecords]

theorem fillState_small (es : Int) (done : List Seg) (rw0 : Int) (t : List Int)
    (h : t.length < 2048) :
    fillState es done rw0 t = ⟨(t.length : Int), es, some ⟨rw0, t⟩, done⟩ := by
  unfold fillState
  rw [groups2048_small t h, rem2048_small t h]
  have h1 : ((t.length % 2048 : Nat) : Int) = (t.length : Int) := by omega
  have h2 : (if 2048 ≤ t.length then (0:Int) else rw0) = rw0 := by rw [if_neg (by omega)]
  rw [h1, h2]
  simp [segRecords]

theorem fillState_step (es : Int) (done : List Seg) (rw0 : Int) (t : List Int)
    (h : 2048 ≤ t.length) :
    fillState es done rw0 t = fillState es (done ++ [⟨rw0, t.take 2048⟩]) 0 (t.drop 2048) := by
  unfold fillState
  rw [groups2048_step t h, rem2048_step t h]
  have h1 : ((t.length % 2048 : Nat) : Int) = (((t.drop 2048).length % 2048 : Nat) : Int) := by
    simp only [List.length_drop]
    omega
  have h2 : (if 2048 ≤ t.length then (0:Int) else rw0) = 0 := if_pos h
  have h3 : (if 2048 ≤ (t.drop 2048).length then (0:Int) else 0) = 0 := by split <;> rfl
  rw [h1, h2, h3]
  have h4 : segRecords rw0 (t.take 2048 :: groups2048 (t.drop 2048))
      = ⟨rw0, t.take 2048⟩ :: segRecords 0 (groups2048 (t.drop 2048)) := by
    rw [segRecords_zero]
    rfl
  rw [h4]
  simp

/-- Specification of the consume loop for non-closing calls on a well-formed
open state: the result is a pure function of the samples cs already in the
open record and the new data. -/
theorem consume_false_spec : ∀ (n : Nat) (data cs : List Int) (rw0 es : Int) (done : List Seg),
    data.length ≤ n → cs.length < 2048 →
    consume false ⟨(cs.length : Int), es, some ⟨rw0, cs⟩, done⟩ data
      = fillState es done rw0 (cs ++ data) := by
  intro n
  induction n with
  | zero =>
    intro data cs rw0 es done hn hcs
    have hd : data = [] := by cases data <;> simp_all
    subst hd
    rw [consume_nil, List.append_nil, fillState_small es done rw0 cs hcs]
  | succ n ih =>
    intro data cs rw0 es done hn hcs
    by_cases hd : data = []
    · subst hd
      rw [consume_nil, List.append_nil, fillState_small es done rw0 cs hcs]
    · rw [consume_unfold, if_neg hd]
      by_cases hc1 : (cs.length : Int) < 1005
      · rw [if_pos hc1]
        by_cases hen : 1005 - (cs.length : Int) ≤ (data.length : Int)
        · rw [if_pos hen]
          simp only [Option.map_some']
          have hlen2 : ((cs ++ data.take (1005 - (cs.length : Int)).toNat).length : Int)
              = 1005 := by
            simp only [List.length_append, List.length_take]
            push_cast
            omega
          have hih := ih (data.drop (1005 - (cs.length : Int)).toNat)
              (cs ++ data.take (1005 - (cs.length : Int)).toNat) rw0 es done
              (by simp only [List.length_drop]; omega)
              (by simp only [List.length_append, List.length_take]; omega)
          rw [hlen2] at hih
          rw [hih, List.append_assoc, List.take_append_drop]
        · rw [if_neg hen]
          simp only [Option.map_some']
          rw [fillState_small es done rw0 (cs ++ data)
              (by simp only [List.length_append]; omega)]
          have he : ((cs ++ data).length : Int) = (cs.length : Int) + (data.length : Int) := by
            simp only [List.length_append]
            push_cast
            ring
          rw [he]
      · rw [if_neg hc1]
        by_cases hc2 : (cs.length : Int) < 2026
        · rw [if_pos hc2]
          by_cases hen : 2026 - (cs.length : Int) ≤ (data.length : Int)
          · rw [if_pos hen]
            simp only [Option.map_some']
            have hlen2 : ((cs ++ data.take (2026 - (cs.length : Int)).toNat).length : Int)
                = 2026 := by
              simp only [List.length_append, List.length_take]
              push_cast
              omega
            have hih := ih (data.drop (2026 - (cs.length : Int)).toNat)
                (cs ++ data.take (2026 - (cs.length : Int)).toNat) rw0 es done
                (by simp only [List.length_drop]; omega)
                (by simp only [List.length_append, List.length_take]; omega)
            rw [hlen2] at hih
            rw [hih, List.append_assoc, List.take_append_drop]
          · rw [if_neg hen]
            simp only [Option.map_some']
            rw [fillState_small es done rw0 (cs ++ data)
                (by simp only [List.length_append]; omega)]
            have he : ((cs ++ data).length : Int) = (cs.length : Int) + (data.length : Int) := by
              simp only [List.length_append]
              push_cast
              ring
            rw [he]
        · rw [if_neg hc2]
          by_cases hen : 2048 - (cs.length : Int) ≤ (data.length : Int)
          · rw [if_pos hen]
            have hnewcur : (if (false = false ∨ data.drop (2048 - (cs.length : Int)).toNat ≠ [])
                  then some (⟨if false = true ∧
                      ((data.drop (2048 - (cs.length : Int)).toNat).length : Int) ≤ 2048
                    then es else 0, []⟩ : Seg)
                  else none) = some ⟨0, []⟩ := by
              rw [if_pos (Or.inl rfl)]
              simp
            rw [hnewcur]
            have hih := ih (data.drop (2048 - (cs.length : Int)).toNat) [] 0 es
                (done ++ [⟨rw0, cs ++ data.take (2048 - (cs.length : Int)).toNat⟩])
                (by simp only [List.length_drop]; omega)
                (by simp)
            rw [show ((([] : List Int)).length : Int) = 0 by simp, List.nil_append] at hih
            rw [hih, fillState_step es done rw0 (cs ++ data)
                  (by simp only [List.length_append]; omega)]
            have ha : (2048 - (cs.length : Int)).toNat = 2048 - cs.length := by omega
            have htake : (cs ++ data).take 2048
                = cs ++ data.take (2048 - (cs.length : Int)).toNat := by
              rw [List.take_append_eq_append_take, List.take_of_length_le (by omega), ha]
            have hdrop : (cs ++ data).drop 2048
                = data.drop (2048 - (cs.length : Int)).toNat := by
              rw [List.drop_append_eq_append_drop, List.drop_eq_nil_of_le (by omega), ha,
                  List.nil_append]
            rw [htake, hdrop]
          · rw [if_neg hen]
            simp only [Option.map_some']
            rw [fillState_small es done rw0 (cs ++ data)
                (by simp only [List.length_append]; omega)]
            have he : ((cs ++ data).length : Int) = (cs.length : Int) + (data.length : Int) := by
              simp only [List.length_append]
              push_cast
              ring
            rw [he]

/-- Closing-call padding: on a closing call whose data exactly fills the open
segment record to the 2048 boundary, the loop completes the record without
opening a new one, and cursamp ends at 0. -/
theorem consume_pad : ∀ (n : Nat) (data cs : List Int) (rw0 es : Int) (done : List Seg),
    data.length ≤ n → cs.length + data.length = 2048 → data ≠ [] →
    consume true ⟨(cs.length : Int), es, some ⟨rw0, cs⟩, done⟩ data
      = ⟨0, es, none, done ++ [⟨rw0, cs ++ data⟩]⟩ := by
  intro n
  induction n with
  | zero =>
    intro data cs rw0 es done hn hsum hd
    cases data <;> simp_all
  | succ n ih =>
    intro data cs rw0 es done hn hsum hd
    have hdl : 1 ≤ data.length := by cases data <;> simp_all
    rw [consume_unfold, if_neg hd]
    by_cases hc1 : (cs.length : Int) < 1005
    · rw [if_pos hc1, if_pos (by push_cast; omega)]
      simp only [Option.map_some']
      have hlen2 : ((cs ++ data.take (1005 - (cs.length : Int)).toNat).length : Int) = 1005 := by
        simp only [List.length_append, List.length_take]
        push_cast
        omega
      have hih := ih (data.drop (1005 - (cs.length : Int)).toNat)
          (cs ++ data.take (1005 - (cs.length : Int)).toNat) rw0 es done
          (by simp only [List.length_drop]; omega)
          (by simp only [List.length_append, List.length_take, List.length_drop]; omega)
          (by
            have : 0 < (data.drop (1005 - (cs.length : Int)).toNat).length := by
              simp only [List.length_drop]
              omega
            exact List.length_pos.mp this)
      rw [hlen2] at hih
      rw [hih, List.append_assoc, List.take_append_drop]
    · rw [if_neg hc1]
      by_cases hc2 : (cs.length : Int) < 2026
      · rw [if_pos hc2, if_pos (by push_cast; omega)]
        simp only [Option.map_some']
        have hlen2 : ((cs ++ data.take (2026 - (cs.length : Int)).toNat).length : Int)
            = 2026 := by
          simp only [List.length_append, List.length_take]
          push_cast
          omega
        have hih := ih (data.drop (2026 - (cs.length : Int)).toNat)
            (cs ++ data.take (2026 - (cs.length : Int)).toNat) rw0 es done
            (by simp only [List.length_drop]; omega)
            (by simp only [List.length_append, List.length_take, List.length_drop]; omega)
            (by
              have : 0 < (data.drop (2026 - (cs.length : Int)).toNat).length := by
                simp only [List.length_drop]
                omega
              exact List.length_pos.mp this)
        rw [hlen2] at hih
        rw [hih, List.append_assoc, List.take_append_drop]
      · rw [if_neg hc2, if_pos (by push_cast; omega)]
        have ha : (2048 - (cs.length : Int)).toNat = data.length := by omega
        rw [ha, List.drop_length, List.take_length]
        rw [if_neg (by simp)]
        rw [consume_nil]

/-- pcmseq2_write_data with lastsegment = 0: just the entry-size update and
the loop. -/
theorem write_data_false (cursamp entrysize : Int) (cur : Option Seg) (done : List Seg)
    (data : List Int) :
    pcmseq2_write_data ⟨cursamp, entrysize, cur, done⟩ data false
      = consume false ⟨cursamp, entrysize + data.length, cur, done⟩ data := by
  simp [pcmseq2_write_data]

/-- Streams that differ only by complete groups already in the record list
fill to the same writer state. -/
theorem fillState_shift (es : Int) (W c : List Int) :
    fillState es ((groups2048 W).map fun g => (⟨0, g⟩ : Seg)) 0 (rem2048 W ++ c)
      = fillState es [] 0 (W ++ c) := by
  have hr := rem2048_length W.length W le_rfl
  unfold fillState
  have h1 : (((rem2048 W ++ c).length % 2048 : Nat) : Int)
      = (((W ++ c).length % 2048 : Nat) : Int) := by
    simp only [List.length_append, hr]
    omega
  have h2 : ∀ (m : Nat), (if 2048 ≤ m then (0:Int) else 0) = 0 := by
    intro m
    split <;> rfl
  rw [h1, h2, h2, (rem2048_append W.length W c le_rfl).symm,
      groups2048_append W.length W c le_rfl, segRecords_zero, segRecords_zero,
      List.map_append, List.nil_append]

/-- The writer-state invariant for non-closing chunk writes: after the header
and chunks concatenating to W, the state is a function of W alone. -/
theorem write_data_false_wshape (W c : List Int) :
    pcmseq2_write_data (wshape W) c false = wshape (W ++ c) := by
  by_cases hW : W = []
  · subst hW
    have h0 : wshape [] = pcmseq2_write_hdr := by simp [wshape]
    rw [h0, List.nil_append]
    show pcmseq2_write_data ⟨2048, 0, none, []⟩ c false = wshape c
    rw [write_data_false]
    by_cases hc : c = []
    · subst hc
      rw [consume_nil]
      simp [wshape, pcmseq2_write_hdr]
    · rw [consume_unfold, if_neg hc, if_neg (by norm_num), if_neg (by norm_num),
          if_pos (by
            have : 1 ≤ c.length := by cases c <;> simp_all
            push_cast
            omega)]
      have hz : ((2048 : Int) - 2048).toNat = 0 := by norm_num
      rw [hz, List.drop_zero, List.take_zero]
      rw [if_pos (Or.inl rfl)]
      have hcur : (if false = true ∧ ((c.length : Int)) ≤ 2048 then (0 : Int) + (c.length : Int)
          else 0) = 0 := by
        rw [if_neg (by simp)]
      simp only [hcur]
      have hih := consume_false_spec c.length c [] 0 (0 + (c.length : Int)) [] le_rfl
          (by simp)
      rw [show ((([] : List Int)).length : Int) = 0 by simp, List.nil_append] at hih
      rw [hih]
      unfold wshape
      rw [if_neg hc]
      have hes : (0 : Int) + (c.length : Int) = (c.length : Int) := by ring
      rw [hes]
  · have hWc : W ++ c ≠ [] := by simp [hW]
    have hr := rem2048_length W.length W le_rfl
    have hrlt : (rem2048 W).length < 2048 := by omega
    have hcs : ((W.length % 2048 : Nat) : Int) = ((rem2048 W).length : Int) := by rw [hr]
    have h2 : (if 2048 ≤ W.length then (0:Int) else 0) = 0 := by split <;> rfl
    conv_lhs => rw [wshape, if_neg hW, fillState, hcs, h2, segRecords_zero]
    rw [write_data_false]
    rw [List.nil_append]
    have hih := consume_false_spec c.length c (rem2048 W) 0
        ((W.length : Int) + (c.length : Int))
        ((groups2048 W).map fun g => (⟨0, g⟩ : Seg)) le_rfl hrlt
    rw [hih, fillState_shift]
    conv_rhs => rw [wshape, if_neg hWc]
    have hlen : ((W ++ c).length : Int) = (W.length : Int) + (c.length : Int) := by
      simp only [List.length_append]
      push_cast
      ring
    rw [hlen]

/-- The chunk phase reaches exactly the wshape state. -/
theorem writeChunks_wshape (chunks : List (List Int)) :
    writeChunks chunks = wshape chunks.flatten := by
  have haux : ∀ (cks : List (List Int)) (W : List Int),
      List.foldl (fun st c => pcmseq2_write_data st c false) (wshape W) cks
        = wshape (W ++ cks.flatten) := by
    intro cks
    induction cks with
    | nil =>
      intro W
      simp
    | cons c cks2 ih =>
      intro W
      simp only [List.foldl_cons, List.flatten_cons]
      rw [write_data_false_wshape, ih (W ++ c), List.append_assoc]
  have h0 : wshape [] = pcmseq2_write_hdr := by simp [wshape]
  unfold writeChunks
  rw [← h0, haux chunks [], List.nil_append]

theorem setLastRw_append (v : Int) (A : List Seg) (s : Seg) :
    setLastRw v (A ++ [s]) = A ++ [⟨v, s.samples⟩] := by
  induction A with
  | nil => rfl
  | cons a A2 ih =>
    cases A2 with
    | nil => rfl
    | cons b A3 =>
      show a :: setLastRw v ((b :: A3) ++ [s]) = a :: ((b :: A3) ++ [⟨v, s.samples⟩])
      rw [ih]

/-- pcmseq2_write_data for the zero-length closing call: the pre-loop hack
turns the call into boundary padding, and (when the padding brings cursamp to
0, which the padding lemma shows always happens for well-formed states) the
in-loop refill does not trigger again, so the call is the padded consume
followed by the recordwords backpatch. -/
theorem write_data_close (cursamp entrysize : Int) (cur : Option Seg) (done : List Seg)
    (hpos : (consume true ⟨cursamp, entrysize, cur, done⟩
        (List.replicate (2048 - cursamp).toNat 0)).cursamp = 0) :
    pcmseq2_write_data ⟨cursamp, entrysize, cur, done⟩ [] true
      = backpatchRw (consume true ⟨cursamp, entrysize, cur, done⟩
          (List.replicate (2048 - cursamp).toNat 0)) := by
  simp [pcmseq2_write_data, hpos]

/-- Full characterization of a closed entry: the completed records hold the
chunk stream padded with zeros to the next 2048 boundary, all records opened
with recordwords 0, and the backpatch rewrites the last record with the true
entry total. -/
theorem writeEntryClose_eq (chunks : List (List Int)) (hne : chunks.flatten ≠ []) :
    writeEntryClose chunks
      = ⟨0, (chunks.flatten.length : Int), none,
         (groups2048 chunks.flatten).map (fun g => (⟨0, g⟩ : Seg)) ++
           [⟨(chunks.flatten.length : Int),
             rem2048 chunks.flatten ++
               List.replicate (2048 - chunks.flatten.length % 2048) 0⟩]⟩ := by
  have hr := rem2048_length chunks.flatten.length chunks.flatten le_rfl
  have hrlt : (rem2048 chunks.flatten).length < 2048 := by omega
  have hcs : ((chunks.flatten.length % 2048 : Nat) : Int)
      = ((rem2048 chunks.flatten).length : Int) := by rw [hr]
  have h2 : (if 2048 ≤ chunks.flatten.length then (0:Int) else 0) = 0 := by split <;> rfl
  have hpadlen : ((2048 : Int) - ((rem2048 chunks.flatten).length : Int)).toNat
      = 2048 - (rem2048 chunks.flatten).length := by omega
  have hpad := consume_pad (2048 - (rem2048 chunks.flatten).length)
      (List.replicate (2048 - (rem2048 chunks.flatten).length) (0 : Int))
      (rem2048 chunks.flatten) 0 (chunks.flatten.length : Int)
      ((groups2048 chunks.flatten).map fun g => (⟨0, g⟩ : Seg))
      (by simp) (by simp only [List.length_replicate]; omega)
      (by
        have : 0 < (List.replicate (2048 - (rem2048 chunks.flatten).length) (0 : Int)).length := by
          simp only [List.length_replicate]
          omega
        exact List.length_pos.mp this)
  unfold writeEntryClose
  rw [writeChunks_wshape]
  conv_lhs => rw [wshape, if_neg hne, fillState, hcs, h2, segRecords_zero, List.nil_append]
  rw [write_data_close _ _ _ _ (by rw [hpadlen, hpad])]
  rw [hpadlen, hpad]
  show backpatchRw _ = _
  unfold backpatchRw
  simp only []
  rw [setLastRw_append]
  rw [hr]

/-- The backpatch does not move cursamp. -/
theorem backpatch_cursamp (st : WState) : (backpatchRw st).cursamp = st.cursamp := by
  obtain ⟨c, es, cur, done⟩ := st
  cases cur <;> rfl

/-- After any consume of at least one sample from a nonnegative cursamp, the
cursamp lies in [0, 2048). -/
theorem consume_cursamp : ∀ (n : Nat) (lastseg : Bool) (st : WState) (data : List Int),
    2 * data.length + (if 2048 ≤ st.cursamp then 1 else 0) ≤ n → data ≠ [] → 0 ≤ st.cursamp →
    0 ≤ (consume lastseg st data).cursamp ∧ (consume lastseg st data).cursamp < 2048 := by
  intro n
  induction n with
  | zero =>
    intro l st data hn hd h0
    have : 1 ≤ data.length := by cases data <;> simp_all
    omega
  | succ n ih =>
    intro l st data hn hd h0
    obtain ⟨c, es, cur, done⟩ := st
    have h0' : (0:Int) ≤ c := h0
    have hmeas : 2 * data.length + (if 2048 ≤ c then 1 else 0) ≤ n + 1 := hn
    rw [consume_unfold, if_neg hd]
    have hl1 : 1 ≤ data.length := by cases data <;> simp_all
    by_cases hc1 : c < 1005
    · rw [if_pos hc1]
      by_cases hen : 1005 - c ≤ (data.length : Int)
      · rw [if_pos hen]
        by_cases hrest : data.drop (1005 - c).toNat = []
        · rw [hrest, consume_nil]
          exact ⟨by norm_num, by norm_num⟩
        · refine ih l _ _ ?_ hrest (by show (0:Int) ≤ 1005; norm_num)
          have hb : (if 2048 ≤ (1005:Int) then 1 else 0) = 0 := by norm_num
          show 2 * (data.drop (1005 - c).toNat).length + _ ≤ n
          rw [hb]
          simp only [List.length_drop]
          have hc0 : (if 2048 ≤ c then 1 else 0) = 0 := by
            rw [if_neg (by omega)]
          rw [hc0] at hmeas
          omega
      · rw [if_neg hen]
        exact ⟨by show (0:Int) ≤ c + (data.length : Int); omega,
               by show c + (data.length : Int) < 2048; omega⟩
    · rw [if_neg hc1]
      by_cases hc2 : c < 2026
      · rw [if_pos hc2]
        by_cases hen : 2026 - c ≤ (data.length : Int)
        · rw [if_pos hen]
          by_cases hrest : data.drop (2026 - c).toNat = []
          · rw [hrest, consume_nil]
            exact ⟨by norm_num, by norm_num⟩
          · refine ih l _ _ ?_ hrest (by show (0:Int) ≤ 2026; norm_num)
            have hb : (if 2048 ≤ (2026:Int) then 1 else 0) = 0 := by norm_num
            show 2 * (data.drop (2026 - c).toNat).length + _ ≤ n
            rw [hb]
            simp only [List.length_drop]
            have hc0 : (if 2048 ≤ c then 1 else 0) = 0 := by
              rw [if_neg (by omega)]
            rw [hc0] at hmeas
            omega
        · rw [if_neg hen]
          exact ⟨by show (0:Int) ≤ c + (data.length : Int); omega,
                 by show c + (data.length : Int) < 2048; omega⟩
      · rw [if_neg hc2]
        by_cases hen : 2048 - c ≤ (data.length : Int)
        · rw [if_pos hen]
          by_cases hrest : data.drop (2048 - c).toNat = []
          · rw [hrest, consume_nil]
            exact ⟨by norm_num, by norm_num⟩
          · refine ih l _ _ ?_ hrest (by show (0:Int) ≤ 0; norm_num)
            have hb : (if 2048 ≤ (0:Int) then 1 else 0) = 0 := by norm_num
            show 2 * (data.drop (2048 - c).toNat).length + _ ≤ n
            rw [hb]
            simp only [List.length_drop]
            by_cases hcs : 2048 ≤ c
            · have hc1' : (if 2048 ≤ c then 1 else 0) = 1 := by rw [if_pos hcs]
              rw [hc1'] at hmeas
              omega
            · have hc0 : (if 2048 ≤ c then 1 else 0) = 0 := by rw [if_neg hcs]
              rw [hc0] at hmeas
              have : 1 ≤ (2048 - c).toNat := by omega
              omega
        · rw [if_neg hen]
          exact ⟨by show (0:Int) ≤ c + (data.length : Int); omega,
                 by show c + (data.length : Int) < 2048; omega⟩

/-- The cursamp range after any pcmseq2_write_data call that supplies at least
one sample. -/
theorem write_data_cursamp (c es : Int) (cur : Option Seg) (done : List Seg)
    (data : List Int) (lastseg : Bool) (h0 : 0 ≤ c) (hd : data ≠ []) :
    0 ≤ (pcmseq2_write_data ⟨c, es, cur, done⟩ data lastseg).cursamp
    ∧ (pcmseq2_write_data ⟨c, es, cur, done⟩ data lastseg).cursamp < 2048 := by
  have hstep := consume_cursamp (2 * data.length + 1) lastseg
      ⟨c, es + data.length, cur, done⟩ data (by split <;> omega) hd
      (by show (0:Int) ≤ c; exact h0)
  simp only [pcmseq2_write_data]
  rw [if_neg (show ¬(lastseg = true ∧ data = []) from fun hx => hd hx.2)]
  by_cases hg : lastseg = true ∧ data ≠ [] ∧
      0 < (consume lastseg ⟨c, es + data.length, cur, done⟩ data).cursamp
  · rw [if_pos hg]
    have hpadne : List.replicate
        (2048 - (consume lastseg ⟨c, es + data.length, cur, done⟩ data).cursamp).toNat
        (0:Int) ≠ [] := by
      have hlen : 1 ≤ (2048 -
          (consume lastseg ⟨c, es + data.length, cur, done⟩ data).cursamp).toNat := by
        omega
      intro hx
      have hxl := congrArg List.length hx
      simp only [List.length_replicate, List.length_nil] at hxl
      omega
    have hstep2 := consume_cursamp
        (2 * (List.replicate
          (2048 - (consume lastseg ⟨c, es + data.length, cur, done⟩ data).cursamp).toNat
          (0:Int)).length + 1) lastseg
        (consume lastseg ⟨c, es + data.length, cur, done⟩ data)
        (List.replicate
          (2048 - (consume lastseg ⟨c, es + data.length, cur, done⟩ data).cursamp).toNat 0)
        (by split <;> omega) hpadne hstep.1
    rw [if_pos hg.1, backpatch_cursamp]
    exact hstep2
  · rw [if_neg hg]
    by_cases hl : lastseg = true
    · rw [if_pos hl, backpatch_cursamp]
      exact hstep
    · rw [if_neg hl]
      exact hstep

/-- Claim C6 (amended): pcmseq2_write_hdr installs the sentinel cursamp value
2048 (not 0); after every pcmseq2_write_data call that supplies at least one
sample (starting from any nonnegative cursamp, in particular from the
sentinel), cursamp lies in [0, 2048); and the sub-block state is FIRSTSEG
exactly when cursamp < 1005, MIDDLESEG exactly when 1005 ≤ cursamp < 2026,
and LASTSEG exactly when cursamp ≥ 2026. -/
theorem claim_C6 :
    pcmseq2_write_hdr.cursamp = 2048
    ∧ (∀ (st : WState) (data : List Int) (lastseg : Bool),
        0 ≤ st.cursamp → data ≠ [] →
        0 ≤ (pcmseq2_write_data st data lastseg).cursamp
        ∧ (pcmseq2_write_data st data lastseg).cursamp < 2048)
    ∧ (∀ c : Int, (writeState c = 1 ↔ c < 1005)
        ∧ (writeState c = 2 ↔ 1005 ≤ c ∧ c < 2026)
        ∧ (writeState c = 3 ↔ 2026 ≤ c)) := by
  refine ⟨rfl, ?_, ?_⟩
  · intro st data lastseg h0 hd
    obtain ⟨c, es, cur, done⟩ := st
    exact write_data_cursamp c es cur done data lastseg h0 hd
  · intro c
    unfold writeState
    refine ⟨?_, ?_, ?_⟩ <;> constructor <;> intro hx
    · by_contra hcon
      rw [if_neg hcon] at hx
      split at hx <;> omega
    · rw [if_pos hx]
    · rcases lt_or_le c 1005 with h | h
      · rw [if_pos h] at hx
        omega
      · rcases le_or_lt 2026 c with h2 | h2
        · rw [if_neg (by omega), if_pos h2] at hx
          omega
        · exact ⟨h, h2⟩
    · rw [if_neg (by omega), if_neg (by omega)]
    · rcases lt_or_le c 1005 with h | h
      · rw [if_pos h] at hx
        omega
      · rcases le_or_lt 2026 c with h2 | h2
        · exact h2
        · rw [if_neg (by omega), if_neg (by omega)] at hx
          omega
    · rw [if_neg (by omega), if_pos hx]

/-- Claim C6 witness: a concrete write of one sample keeps cursamp in range. -/
theorem claim_C6_witness :
    (0:Int) ≤ ((⟨0, 0, some ⟨0, []⟩, []⟩ : WState)).cursamp ∧ ([5] : List Int) ≠ [] ∧
    (0 ≤ (pcmseq2_write_data ⟨0, 0, some ⟨0, []⟩, []⟩ [5] false).cursamp
     ∧ (pcmseq2_write_data ⟨0, 0, some ⟨0, []⟩, []⟩ [5] false).cursamp < 2048) :=
  ⟨by norm_num, by simp,
   claim_C6.2.1 ⟨0, 0, some ⟨0, []⟩, []⟩ [5] false (by norm_num) (by simp)⟩

/-- Claim C1: writing any chunk sequence (odd sizes and empty chunks allowed)
after pcmseq2_write_hdr, closing with a zero-length lastsegment call, and
reading the entry back over its full range via pcmseq2_read returns exactly
the original samples in order (no padding zeros), and the backpatched
recordwords field of the entry equals the true total of samples supplied. -/
theorem claim_C1 (chunks : List (List Int)) (h : Handle)
    (hne : chunks.flatten ≠ [])
    (hle : h.lastentry ≠ -1 → 1 ≤ h.lastentry) (hpc : h.posCache 1 ≠ -1) :
    ((pcmseq2_read false true ((writeEntryClose chunks).done.map RSlot.vseg) h 1 0
          ((chunks.flatten.length : Int) - 1)).2).map Prod.fst
      = some chunks.flatten
    ∧ ((writeEntryClose chunks).done.map Seg.rw).getLast?
        = some (chunks.flatten.length : Int) := by
  have hWlen : 1 ≤ chunks.flatten.length := by
    cases hWc : chunks.flatten <;> simp_all
  have hdone : (writeEntryClose chunks).done
      = (groups2048 chunks.flatten).map (fun g => (⟨0, g⟩ : Seg)) ++
          [⟨(chunks.flatten.length : Int),
            rem2048 chunks.flatten ++
              List.replicate (2048 - chunks.flatten.length % 2048) 0⟩] := by
    rw [writeEntryClose_eq chunks hne]
  have hlastlen : (rem2048 chunks.flatten ++
      List.replicate (2048 - chunks.flatten.length % 2048) (0:Int)).length = 2048 := by
    rw [List.length_append, List.length_replicate,
        rem2048_length chunks.flatten.length chunks.flatten le_rfl]
    omega
  have hlens : ∀ s ∈ (writeEntryClose chunks).done, s.samples.length = 2048 := by
    rw [hdone]
    intro s hm
    rcases List.mem_append.mp hm with hm1 | hm1
    · rcases List.mem_map.mp hm1 with ⟨g, hg, rfl⟩
      exact groups2048_length chunks.flatten.length chunks.flatten le_rfl g hg
    · rcases List.mem_singleton.mp hm1 with rfl
      exact hlastlen
  have hstream : segsStream (writeEntryClose chunks).done
      = chunks.flatten ++ List.replicate (2048 - chunks.flatten.length % 2048) 0 := by
    rw [hdone]
    unfold segsStream
    rw [List.map_append, List.map_map, List.flatten_append]
    have hcomp : (Seg.samples ∘ fun g => (⟨0, g⟩ : Seg)) = id := by
      funext g
      rfl
    rw [hcomp, List.map_id, List.map_singleton]
    show (groups2048 chunks.flatten).flatten ++
        (rem2048 chunks.flatten ++ List.replicate (2048 - chunks.flatten.length % 2048) 0 ++ [])
      = _
    rw [List.append_nil, ← List.append_assoc,
        groups2048_flatten chunks.flatten.length chunks.flatten le_rfl]
  constructor
  · rw [pcmseq2_read_vseg false (writeEntryClose chunks).done h 1 0
        ((chunks.flatten.length : Int) - 1) (by norm_num) hle hpc hlens (le_refl 0)
        (by omega)]
    rw [hstream]
    unfold winSlice
    have e1 : ((0:Int) - 0).toNat = 0 := rfl
    have e2 : ((chunks.flatten.length : Int) - 1 + 1 - max 0 0).toNat
        = chunks.flatten.length := by omega
    rw [e1, e2, List.drop_zero, List.take_left]
  · rw [hdone, List.map_append, List.map_singleton]
    simp

/-- Claim C1 witness at the concrete chunk sequence [1,2,3], [], [4,5]. -/
theorem claim_C1_witness :
    ([[1,2,3],[],[4,5]] : List (List Int)).flatten ≠ [] ∧
    (((pcmseq2_read false true
          ((writeEntryClose [[1,2,3],[],[4,5]]).done.map RSlot.vseg)
          (Handle.mk 1 1 (fun i => if i = 1 then 0 else -1) (fun _ => -1) 0 0) 1 0
          ((([[1,2,3],[],[4,5]] : List (List Int)).flatten.length : Int) - 1)).2).map Prod.fst
        = some ([[1,2,3],[],[4,5]] : List (List Int)).flatten
     ∧ (((writeEntryClose [[1,2,3],[],[4,5]]).done.map Seg.rw).getLast?
        = some ((([[1,2,3],[],[4,5]] : List (List Int)).flatten.length : Int)))) :=
  ⟨by decide,
   claim_C1 [[1,2,3],[],[4,5]]
     (Handle.mk 1 1 (fun i => if i = 1 then 0 else -1) (fun _ => -1) 0 0)
     (by decide) (by norm_num) (by norm_num)⟩

/-! ## Claim C10: the dispatch layer never writes data without a header -/

theorem traceOk_append (t1 t2 : List WOp) : ∀ b : Bool,
    traceOk b (t1 ++ t2) = (traceOk b t1 && traceOk (openAfter b t1) t2) := by
  induction t1 with
  | nil =>
    intro b
    simp [traceOk, openAfter]
  | cons op t ih =>
    intro b
    cases op with
    | hdr => simp [traceOk, openAfter, ih]
    | dat samples ls => simp [traceOk, openAfter, ih, Bool.and_assoc]

theorem openAfter_append (t1 t2 : List WOp) : ∀ b : Bool,
    openAfter b (t1 ++ t2) = openAfter (openAfter b t1) t2 := by
  induction t1 with
  | nil =>
    intro b
    simp [openAfter]
  | cons op t ih =>
    intro b
    cases op with
    | hdr => simp [openAfter, ih]
    | dat samples ls => simp [openAfter, ih]

theorem pcmseq_calls_invariant : ∀ (calls : List PcmCall) (fp : PcmWHandle),
    traceOk fp.entrystarted (pcmseq_calls fp calls).2 = true
    ∧ openAfter fp.entrystarted (pcmseq_calls fp calls).2
        = (pcmseq_calls fp calls).1.entrystarted := by
  intro calls
  induction calls with
  | nil =>
    intro fp
    simp [pcmseq_calls, traceOk, openAfter]
  | cons call rest ih =>
    intro fp
    cases call with
    | write buf =>
      simp only [pcmseq_calls]
      rw [traceOk_append, openAfter_append]
      cases hs : fp.entrystarted
      · rw [pcmseq_write, if_pos hs]
        have h := ih { fp with entrystarted := true }
        simp only at h
        simp [traceOk, openAfter, h.1, h.2]
      · rw [pcmseq_write, if_neg (by rw [hs]; simp)]
        have h := ih fp
        rw [hs] at h
        simp [traceOk, openAfter, h.1, h.2]
    | seek e =>
      simp only [pcmseq_calls]
      rw [traceOk_append, openAfter_append]
      cases hs : fp.entrystarted
      · rw [pcmseq_seek_wronly, if_neg (by rw [hs]; simp)]
        have h := ih { fp with entry := e }
        simp only at h
        rw [hs] at h
        simp only [hs]
        simp [traceOk, openAfter, h.1, h.2]
      · rw [pcmseq_seek_wronly, if_pos hs]
        have h := ih { entrystarted := false, entry := e }
        simp only at h
        simp [traceOk, openAfter, h.1, h.2]

/-- Claim C10 (implicit): at the public write interface sample data is never
written without a preceding entry header.  For every call sequence on a
write-mode handle, the emitted low-level operation trace is well formed (every
pcmseq2_write_data operation occurs with an entry header open), including the
finalization appended by pcmseq_close; pcmseq_write always leaves an entry
started; pcmseq_seek in write mode always leaves entrystarted cleared after
finalizing; and after close no entry remains open. -/
theorem claim_C10 :
    (∀ (calls : List PcmCall) (fp : PcmWHandle),
       traceOk fp.entrystarted
         ((pcmseq_calls fp calls).2 ++ pcmseq_close_wronly (pcmseq_calls fp calls).1) = true
       ∧ openAfter fp.entrystarted
           ((pcmseq_calls fp calls).2 ++ pcmseq_close_wronly (pcmseq_calls fp calls).1)
         = false)
    ∧ (∀ (fp : PcmWHandle) (buf : List Int), (pcmseq_write fp buf).1.entrystarted = true)
    ∧ (∀ (fp : PcmWHandle) (e : Int), (pcmseq_seek_wronly fp e).1.entrystarted = false) := by
  refine ⟨?_, ?_, ?_⟩
  · intro calls fp
    rcases pcmseq_calls_invariant calls fp with ⟨h1, h2⟩
    rw [traceOk_append, openAfter_append, h1, h2]
    cases hs : (pcmseq_calls fp calls).1.entrystarted <;>
      simp [pcmseq_close_wronly, hs, traceOk, openAfter]
  · intro fp buf
    cases hs : fp.entrystarted <;> simp [pcmseq_write, hs]
  · intro fp e
    cases hs : fp.entrystarted <;> simp [pcmseq_seek_wronly, hs]

/-! ## Claim C5: backward scan for corrupted recordwords -/

theorem scanLoop_unfold (valid : Int → Bool) (type1 : Bool) (pos : Int) (step : Nat) :
    scanLoop valid type1 pos step
      = if h0 : 0 < step ∧ pos < step * segsizeOfType type1 then
          scanLoop valid type1 pos (step / 2)
        else
          if valid (pos - step * segsizeOfType type1) then
            if h1 : step = 0 then pos
            else scanLoop valid type1 (pos - step * segsizeOfType type1) step
          else
            if h2 : 0 < step / 2 then scanLoop valid type1 pos (step / 2) else pos := by
  conv_lhs => rw [scanLoop.eq_def]

/-- On a grid of k consecutive valid segment-header positions ending at tmppos
(and no valid header anywhere below them on the grid), the backward scan from
any grid point, with any step at most 256, terminates at the lowest grid
point. -/
theorem scanLoop_grid (valid : Int → Bool) (type1 : Bool) (tmppos : Int) (k : Nat)
    (hk : 1 ≤ k)
    (hgrid : ∀ m : Nat, valid (tmppos - (m : Int) * segsizeOfType type1)
        = decide (m < k))
    (hpos : 0 ≤ tmppos - ((k : Int) - 1) * segsizeOfType type1) :
    ∀ (n step m : Nat), m < k → step ≤ 256 →
      (step = 0 → tmppos - (m : Int) * segsizeOfType type1 < segsizeOfType type1) →
      (tmppos - (m : Int) * segsizeOfType type1).toNat * 300 + step ≤ n →
      scanLoop valid type1 (tmppos - (m : Int) * segsizeOfType type1) step
        = tmppos - ((k : Int) - 1) * segsizeOfType type1 := by
  have hs : (0:Int) < segsizeOfType type1 := by
    cases type1 <;> norm_num [segsizeOfType]
  have hgap : ∀ a b : Nat, a < b →
      segsizeOfType type1 + (tmppos - (b : Int) * segsizeOfType type1)
        ≤ tmppos - (a : Int) * segsizeOfType type1 := by
    intro a b hab
    have h2 : (0:Int) ≤ ((b : Int) - (a : Int) - 1) * segsizeOfType type1 := by
      apply mul_nonneg _ hs.le
      have : (a : Int) + 1 ≤ (b : Int) := by exact_mod_cast hab
      linarith
    have h3 : ((b : Int) - (a : Int) - 1) * segsizeOfType type1
        = (b : Int) * segsizeOfType type1 - (a : Int) * segsizeOfType type1
          - segsizeOfType type1 := by ring
    rw [h3] at h2
    linarith
  have hmk1 : ∀ m : Nat, m < k →
      tmppos - (m : Int) * segsizeOfType type1 < segsizeOfType type1 → (m : Int) = (k : Int) - 1 := by
    intro m hm hlt
    by_contra hne
    have hmlt : m < k - 1 := by omega
    have hg := hgap m (k - 1) hmlt
    have hcast : (((k - 1 : Nat)) : Int) = (k : Int) - 1 := by omega
    rw [hcast] at hg
    linarith
  intro n
  induction n using Nat.strong_induction_on with
  | _ n ih =>
    intro step m hm hstep hstep0 hmeas
    rw [scanLoop_unfold]
    by_cases h0 : 0 < step ∧ tmppos - (m : Int) * segsizeOfType type1
        < (step : Int) * segsizeOfType type1
    · rw [dif_pos h0]
      have hmeas2 : (tmppos - (m : Int) * segsizeOfType type1).toNat * 300 + step / 2 < n := by
        omega
      exact ih _ hmeas2 (step / 2) m hm (by omega)
        (fun hz => by
          have h1 : step = 1 := by omega
          rw [h1] at h0
          simpa using h0.2)
        (le_refl _)
    · rw [dif_neg h0]
      have hcand : tmppos - (m : Int) * segsizeOfType type1 - (step : Int) * segsizeOfType type1
          = tmppos - (((m + step : Nat)) : Int) * segsizeOfType type1 := by
        push_cast
        ring
      rw [hcand, hgrid (m + step)]
      by_cases hmpk : m + step < k
      · rw [if_pos (by simpa using hmpk)]
        by_cases hz : step = 0
        · rw [dif_pos hz]
          have hc := hmk1 m hm (hstep0 hz)
          rw [hc]
        · rw [dif_neg hz]
          have hsz : segsizeOfType type1 ≤ (step : Int) * segsizeOfType type1 := by
            have h1 : (1 : Int) ≤ (step : Int) := by
              exact_mod_cast Nat.one_le_iff_ne_zero.mpr hz
            calc segsizeOfType type1 = 1 * segsizeOfType type1 := by ring
              _ ≤ (step : Int) * segsizeOfType type1 :=
                  mul_le_mul_of_nonneg_right h1 hs.le
          have hbig : ¬ (tmppos - (m : Int) * segsizeOfType type1
              < (step : Int) * segsizeOfType type1) := by
            intro hlt
            exact h0 ⟨Nat.pos_of_ne_zero hz, hlt⟩
          push_neg at hbig
          have hlt2 : tmppos - (((m + step : Nat)) : Int) * segsizeOfType type1
              < tmppos - (m : Int) * segsizeOfType type1 := by
            have := hgap m (m + step) (by omega)
            linarith
          have hge2 : (0:Int) ≤ tmppos - (((m + step : Nat)) : Int) * segsizeOfType type1 := by
            rw [← hcand]
            linarith
          have hmeas2 : (tmppos - (((m + step : Nat)) : Int) * segsizeOfType type1).toNat * 300
              + step < n := by
            have hposm : (0:Int) < tmppos - (m : Int) * segsizeOfType type1 := by linarith
            omega
          exact ih _ hmeas2 step (m + step) hmpk hstep (fun hz2 => absurd hz2 hz) (le_refl _)
      · rw [if_neg (by simpa using hmpk)]
        have hstep1 : 1 ≤ step := by omega
        by_cases hh : 0 < step / 2
        · rw [dif_pos hh]
          have hmeas2 : (tmppos - (m : Int) * segsizeOfType type1).toNat * 300 + step / 2 < n := by
            omega
          exact ih _ hmeas2 (step / 2) m hm (by omega) (fun hz => by omega) (le_refl _)
        · rw [dif_neg hh]
          have hc : (m : Int) = (k : Int) - 1 := by omega
          rw [hc]

/-- Claim C5: with a corrupted recordwords field (0 or -1), the indexer
recovers the entry via the backward power-of-two scan: for an entry of k whole
segments starting at entrypos (entry header at entrypos, segment headers at
the k grid positions after it, no valid segment header on the grid below), the
scan started from the last segment header position lands exactly on entrypos,
and the indexer records the entry sample count as k * 2048; and whenever the
scan fails, indexing of the file fails. -/
theorem claim_C5 (valid : Int → Bool) (type1 : Bool) (entrypos : Int) (k : Nat)
    (hk : 1 ≤ k) (hpos : 0 ≤ entrypos)
    (hgrid : ∀ m : Nat,
      valid (entrypos + enthdrsizeOfType type1 + ((k : Int) - 1) * segsizeOfType type1
        - (m : Int) * segsizeOfType type1) = decide (m < k)) :
    pcmseq2_scantoentrystart valid type1
        (entrypos + enthdrsizeOfType type1 + ((k : Int) - 1) * segsizeOfType type1)
      = some entrypos
    ∧ index_corrupt_recordwords valid type1
        (entrypos + enthdrsizeOfType type1 + ((k : Int) - 1) * segsizeOfType type1)
      = some ((k : Int) * 2048)
    ∧ (∀ (v : Int → Bool) (t : Bool) (p : Int),
        pcmseq2_scantoentrystart v t p = none → index_corrupt_recordwords v t p = none) := by
  have hs : (0:Int) < segsizeOfType type1 := by
    cases type1 <;> norm_num [segsizeOfType]
  have he : (0:Int) < enthdrsizeOfType type1 := by
    cases type1 <;> norm_num [enthdrsizeOfType]
  have htarget : entrypos + enthdrsizeOfType type1 + ((k : Int) - 1) * segsizeOfType type1
      - ((k : Int) - 1) * segsizeOfType type1 = entrypos + enthdrsizeOfType type1 := by ring
  have hpos2 : 0 ≤ entrypos + enthdrsizeOfType type1 + ((k : Int) - 1) * segsizeOfType type1
      - ((k : Int) - 1) * segsizeOfType type1 := by
    rw [htarget]
    linarith
  have h0s : entrypos + enthdrsizeOfType type1 + ((k : Int) - 1) * segsizeOfType type1
      - ((0 : Nat) : Int) * segsizeOfType type1
      = entrypos + enthdrsizeOfType type1 + ((k : Int) - 1) * segsizeOfType type1 := by
    push_cast
    ring
  have hrun := scanLoop_grid valid type1
    (entrypos + enthdrsizeOfType type1 + ((k : Int) - 1) * segsizeOfType type1) k hk hgrid hpos2
    ((entrypos + enthdrsizeOfType type1 + ((k : Int) - 1) * segsizeOfType type1
        - ((0 : Nat) : Int) * segsizeOfType type1).toNat * 300 + 256)
    256 0 hk (le_refl _) (fun hz => by omega) (le_refl _)
  rw [h0s] at hrun
  have hv : valid (entrypos + enthdrsizeOfType type1 + ((k : Int) - 1) * segsizeOfType type1)
      = true := by
    have h := hgrid 0
    rw [h0s] at h
    rw [h]
    simp only [decide_eq_true_eq]
    omega
  have hscan : pcmseq2_scantoentrystart valid type1
      (entrypos + enthdrsizeOfType type1 + ((k : Int) - 1) * segsizeOfType type1)
      = some entrypos := by
    rw [pcmseq2_scantoentrystart, if_pos hv, hrun]
    congr 1
    ring
  refine ⟨hscan, ?_, ?_⟩
  · simp only [index_corrupt_recordwords, hscan]
    have harith : entrypos + enthdrsizeOfType type1 + ((k : Int) - 1) * segsizeOfType type1
        + segsizeOfType type1 - entrypos - enthdrsizeOfType type1
        = (k : Int) * segsizeOfType type1 := by ring
    rw [harith, Int.mul_tdiv_cancel _ hs.ne.symm]
  · intro v t p h
    simp only [index_corrupt_recordwords, h]

/-- Witness for claim C5: a two-segment type-2 entry starting at offset 0, with
valid segment headers exactly at offsets 54 and 4188; the scan from the last
segment header at 4188 lands on 0 and the indexer records 2 * 2048 = 4096
samples. -/
theorem claim_C5_witness :
    pcmseq2_scantoentrystart (fun p => decide (p = 54 ∨ p = 4188)) false 4188 = some 0
    ∧ index_corrupt_recordwords (fun p => decide (p = 54 ∨ p = 4188)) false 4188
      = some 4096 := by
  have h := claim_C5 (fun p => decide (p = 54 ∨ p = 4188)) false 0 2
    (by norm_num) (by norm_num)
    (by
      intro m
      simp only [segsizeOfType, enthdrsizeOfType, Bool.false_eq_true, if_false]
      rw [decide_eq_decide]
      push_cast
      omega)
  have e1 : (0:Int) + enthdrsizeOfType false + (((2:Nat) : Int) - 1) * segsizeOfType false
      = 4188 := by norm_num [segsizeOfType, enthdrsizeOfType]
  rw [e1] at h
  have e2 : (((2:Nat) : Int)) * 2048 = 4096 := by norm_num
  rw [e2] at h
  exact ⟨h.1, h.2.1⟩

end PcmSeq2
